import Mathlib

/-!
Verification development for the pglite-encrypted-fs repository.

The TypeScript source is shallowly embedded: byte buffers become `List Nat`,
fallible operations return `Except`, and the AES-256-GCM library primitive
(which lives in the host runtime, not in this repository) is modelled as an
ideal stream cipher plus a tag recomputed from (key, iv, aad, ciphertext).
All wrapper logic — padding, parsing, page arithmetic, error construction —
is translated directly from `src/crypto.ts` and `src/encrypted-fs.ts`.
-/

set_option maxRecDepth 10000

/-- Page size: 8192 (Postgres default), from `src/crypto.ts`. -/
def PAGE_SIZE : Nat := 8192

/-- Salt length in bytes, from `src/crypto.ts`. -/
def SALT_SIZE : Nat := 16

/-- AES-GCM IV length in bytes, from `src/crypto.ts`. -/
def IV_SIZE : Nat := 12

/-- AES-GCM authentication tag length in bytes, from `src/crypto.ts`. -/
def AUTH_TAG_SIZE : Nat := 16

/-- File identifier length in bytes, from `src/crypto.ts`. -/
def FILE_ID_SIZE : Nat := 32

/-- Header layout: `[salt (16B)][fileId (32B)]` = 48 bytes, from `src/crypto.ts`. -/
def FILE_HEADER_SIZE : Nat := SALT_SIZE + FILE_ID_SIZE

/-- On-disk size of one encrypted page: `[IV][tag][ciphertext]`, from `src/crypto.ts`. -/
def ENCRYPTED_PAGE_SIZE : Nat := PAGE_SIZE + IV_SIZE + AUTH_TAG_SIZE

/-- PBKDF2 iteration count, from `src/crypto.ts`. -/
def KDF_ITERATIONS : Nat := 256000

/-- Magic bytes `PGLITE_ENC` followed by six zero bytes, from `src/crypto.ts`. -/
def VERIFICATION_MAGIC : List Nat :=
  [0x50, 0x47, 0x4c, 0x49, 0x54, 0x45, 0x5f, 0x45, 0x4e, 0x43, 0, 0, 0, 0, 0, 0]

/-- Fixed file ID of the verification token.  In the source this is the
SHA-256 digest of the string `.encryption-verify`; the hash itself is a host
primitive outside this repository, so the digest is represented here as an
opaque 32-byte constant.  No claim depends on its byte values. -/
def VERIFICATION_FILE_ID : List Nat := List.replicate FILE_ID_SIZE 0x56

/-- Big-endian 4-byte encoding of a page number, modelling
`pageNoBuffer.writeUInt32BE(pageNo)` in `src/crypto.ts`. -/
def writeUInt32BE (n : Nat) : List Nat :=
  [n / 2 ^ 24 % 256, n / 2 ^ 16 % 256, n / 2 ^ 8 % 256, n % 256]

/-- Mixing fold underlying the idealised cipher model.  AES itself is a host
library primitive, not code of this repository; only its interface behaviour
(deterministic keystream per (key, iv), tag recomputed over key, iv, AAD and
ciphertext) is relevant to the claims. -/
def prfFold (seed : List Nat) : Nat :=
  seed.foldl (fun a b => (a * 131 + b + 7) % 1000000007) 216613626

/-- Idealised AES-CTR keystream for a given key and IV: `n` identical bytes
derived from the (key, iv) pair.  Stands in for the host AES-256-GCM cipher
stream. -/
def keystream (key iv : List Nat) (n : Nat) : List Nat :=
  List.replicate n (prfFold (key ++ iv) % 256)

/-- Idealised GCM authentication tag: 16 bytes derived from key, IV, AAD and
ciphertext.  Decryption recomputes this function and compares, exactly as the
host AEAD verifies its tag. -/
def gcmTag (key iv aad ct : List Nat) : List Nat :=
  (List.range AUTH_TAG_SIZE).map (fun i => (prfFold (key ++ iv ++ aad ++ ct) + i) % 256)

/-- Error taxonomy of the page codec (`src/crypto.ts` throws `Error` values;
the spec distinguishes the three kinds by their construction site). -/
inductive CryptoError where
  | rangeError : String → CryptoError
  | sizeError : String → CryptoError
  | authError : String → CryptoError
deriving DecidableEq, Repr

/-- `encryptPage` from `src/crypto.ts`.  The randomly sampled IV is passed
explicitly (modelling the `randomBytes(IV_SIZE)` call).  Undersized plaintexts
are zero-padded to `PAGE_SIZE`; oversized ones are truncated by the
`Buffer.copy` into the `PAGE_SIZE` target.  Returns `[iv][tag][ciphertext]`. -/
def encryptPage (plaintext : List Nat) (pageNo : Nat) (encKey fileId iv : List Nat) :
    Except CryptoError (List Nat) :=
  if pageNo > 0xffffffff then
    .error (.rangeError ("Page number out of range: " ++ toString pageNo))
  else
    let pt := plaintext.take PAGE_SIZE ++ List.replicate (PAGE_SIZE - plaintext.length) 0
    let aad := fileId ++ writeUInt32BE pageNo
    let ct := List.zipWith Nat.xor pt (keystream encKey iv PAGE_SIZE)
    let tag := gcmTag encKey iv aad ct
    .ok (iv ++ tag ++ ct)

/-- The exact text of the authentication-failure error thrown by
`decryptPage` in `src/crypto.ts`. -/
def decryptErrorMessage (pageNo : Nat) : String :=
  "Decryption failed for page " ++ toString pageNo ++ ": authentication failed."

/-- `decryptPage` from `src/crypto.ts`: range check, size check, parse
`[iv][tag][ciphertext]`, recompute AAD, verify the tag, return the
`PAGE_SIZE`-byte plaintext.  Any authentication mismatch surfaces as the
single `authError` built from `decryptErrorMessage`. -/
def decryptPage (encryptedPage : List Nat) (pageNo : Nat) (encKey fileId : List Nat) :
    Except CryptoError (List Nat) :=
  if pageNo > 0xffffffff then
    .error (.rangeError ("Page number out of range: " ++ toString pageNo))
  else if encryptedPage.length ≠ ENCRYPTED_PAGE_SIZE then
    .error (.sizeError ("Encrypted page wrong size for page " ++ toString pageNo))
  else
    let iv := encryptedPage.take IV_SIZE
    let tag := (encryptedPage.drop IV_SIZE).take AUTH_TAG_SIZE
    let ct := encryptedPage.drop (IV_SIZE + AUTH_TAG_SIZE)
    let aad := fileId ++ writeUInt32BE pageNo
    if gcmTag encKey iv aad ct = tag then
      .ok (List.zipWith Nat.xor ct (keystream encKey iv PAGE_SIZE))
    else
      .error (.authError (decryptErrorMessage pageNo))

theorem keystream_length (key iv : List Nat) (n : Nat) : (keystream key iv n).length = n := by
  simp [keystream]

theorem gcmTag_length (key iv aad ct : List Nat) : (gcmTag key iv aad ct).length = AUTH_TAG_SIZE := by
  simp [gcmTag]

theorem padPage_length (l : List Nat) :
    (l.take PAGE_SIZE ++ List.replicate (PAGE_SIZE - l.length) 0).length = PAGE_SIZE := by
  simp [List.length_take]
  omega

theorem zipWith_xor_cancel (a b : List Nat) (h : a.length = b.length) :
    List.zipWith Nat.xor (List.zipWith Nat.xor a b) b = a := by
  induction a generalizing b with
  | nil => simp
  | cons x xs ih =>
    cases b with
    | nil => simp at h
    | cons y ys =>
      simp only [List.zipWith_cons_cons, List.cons.injEq]
      constructor
      · show x ^^^ y ^^^ y = x
        rw [Nat.xor_assoc, Nat.xor_self, Nat.xor_zero]
      · exact ih ys (by simpa using h)

/-- `encryptPage` succeeds exactly when the page number is in range, and its
output decomposes as `iv ++ tag ++ ct`. -/
theorem encryptPage_ok (plaintext : List Nat) (pageNo : Nat) (encKey fileId iv : List Nat)
    (h : pageNo ≤ 0xffffffff) :
    encryptPage plaintext pageNo encKey fileId iv =
      .ok (iv ++
        gcmTag encKey iv (fileId ++ writeUInt32BE pageNo)
          (List.zipWith Nat.xor
            (plaintext.take PAGE_SIZE ++ List.replicate (PAGE_SIZE - plaintext.length) 0)
            (keystream encKey iv PAGE_SIZE)) ++
        List.zipWith Nat.xor
          (plaintext.take PAGE_SIZE ++ List.replicate (PAGE_SIZE - plaintext.length) 0)
          (keystream encKey iv PAGE_SIZE)) := by
  simp [encryptPage, Nat.not_lt.mpr h]

/-- Decrypting a well-formed `iv ++ tag ++ ct` produced by `encryptPage`
recovers the padded plaintext. -/
theorem decryptPage_encryptPage (plaintext : List Nat) (pageNo : Nat)
    (encKey fileId iv : List Nat) (hpage : pageNo ≤ 0xffffffff) (hiv : iv.length = IV_SIZE) :
    (encryptPage plaintext pageNo encKey fileId iv).bind
        (fun enc => decryptPage enc pageNo encKey fileId) =
      .ok (plaintext.take PAGE_SIZE ++ List.replicate (PAGE_SIZE - plaintext.length) 0) := by
  rw [encryptPage_ok plaintext pageNo encKey fileId iv hpage]
  set pt := plaintext.take PAGE_SIZE ++ List.replicate (PAGE_SIZE - plaintext.length) 0 with hpt
  have hptlen : pt.length = PAGE_SIZE := padPage_length plaintext
  set ks := keystream encKey iv PAGE_SIZE with hks
  have hkslen : ks.length = PAGE_SIZE := keystream_length encKey iv PAGE_SIZE
  set ct := List.zipWith Nat.xor pt ks with hct
  have hctlen : ct.length = PAGE_SIZE := by
    rw [hct, List.length_zipWith, hptlen, hkslen, Nat.min_self]
  set tag := gcmTag encKey iv (fileId ++ writeUInt32BE pageNo) ct with htag
  have htaglen : tag.length = AUTH_TAG_SIZE := gcmTag_length _ _ _ _
  have hlen : (iv ++ tag ++ ct).length = ENCRYPTED_PAGE_SIZE := by
    simp only [List.length_append, hiv, htaglen, hctlen, ENCRYPTED_PAGE_SIZE, IV_SIZE,
      AUTH_TAG_SIZE, PAGE_SIZE]
  have hparse_iv : (iv ++ tag ++ ct).take IV_SIZE = iv := by
    rw [List.append_assoc]
    exact List.take_left' hiv
  have hdrop_iv : (iv ++ tag ++ ct).drop IV_SIZE = tag ++ ct := by
    rw [List.append_assoc]
    exact List.drop_left' hiv
  have hparse_tag : ((iv ++ tag ++ ct).drop IV_SIZE).take AUTH_TAG_SIZE = tag := by
    rw [hdrop_iv]
    exact List.take_left' htaglen
  have hparse_ct : (iv ++ tag ++ ct).drop (IV_SIZE + AUTH_TAG_SIZE) = ct := by
    rw [← List.drop_drop, hdrop_iv]
    exact List.drop_left' htaglen
  simp only [Except.bind, decryptPage]
  rw [if_neg (by omega), if_neg (by rw [hlen]; exact fun hc => hc rfl)]
  rw [hparse_iv, hparse_tag, hparse_ct, if_pos rfl]
  have hcancel : List.zipWith Nat.xor ct (keystream encKey iv PAGE_SIZE) = pt := by
    rw [← hks, hct]
    exact zipWith_xor_cancel pt ks (by rw [hptlen, hkslen])
  rw [hcancel]

/-- C1: for every 32-byte key, 32-byte file id, page number below 2^32 and
plaintext of at most `PAGE_SIZE` bytes, decrypting the result of
`encryptPage` with the same page number, key and file id returns the
plaintext zero-padded to exactly `PAGE_SIZE` bytes. -/
theorem C1_decrypt_encrypt_roundtrip (encKey fileId plaintext iv : List Nat) (pageNo : Nat)
    (hkey : encKey.length = 32) (hfid : fileId.length = FILE_ID_SIZE)
    (hpage : pageNo < 2 ^ 32) (hlen : plaintext.length ≤ PAGE_SIZE)
    (hiv : iv.length = IV_SIZE) :
    (encryptPage plaintext pageNo encKey fileId iv).bind
        (fun enc => decryptPage enc pageNo encKey fileId) =
      .ok (plaintext ++ List.replicate (PAGE_SIZE - plaintext.length) 0) := by
  rw [decryptPage_encryptPage plaintext pageNo encKey fileId iv (by omega) hiv]
  rw [List.take_of_length_le hlen]

/-- Witness for C1 at a concrete input: the empty plaintext, page 0, an
all-zero key and file id, and a fixed IV. -/
theorem C1_decrypt_encrypt_roundtrip_witness :
    (List.replicate 32 (0 : Nat)).length = 32 ∧
      (List.replicate 32 (0 : Nat)).length = FILE_ID_SIZE ∧
      (0 : Nat) < 2 ^ 32 ∧
      ([] : List Nat).length ≤ PAGE_SIZE ∧
      (List.replicate 12 (1 : Nat)).length = IV_SIZE ∧
      (encryptPage [] 0 (List.replicate 32 0) (List.replicate 32 0) (List.replicate 12 1)).bind
          (fun enc => decryptPage enc 0 (List.replicate 32 0) (List.replicate 32 0)) =
        .ok (([] : List Nat) ++ List.replicate (PAGE_SIZE - ([] : List Nat).length) 0) :=
  ⟨by simp, by simp [FILE_ID_SIZE], by decide, by simp [PAGE_SIZE], by simp [IV_SIZE],
    C1_decrypt_encrypt_roundtrip (List.replicate 32 0) (List.replicate 32 0) [] (List.replicate 12 1) 0
      (by simp) (by simp [FILE_ID_SIZE]) (by decide) (by simp [PAGE_SIZE]) (by simp [IV_SIZE])⟩

/-- `fs.readSync(fd, buf, 0, n, off)` against a file whose bytes are `disk`:
the bytes actually transferred. -/
def readAt (disk : List Nat) (off n : Nat) : List Nat :=
  (disk.drop off).take n

/-- `fs.writeSync(fd, data, 0, data.length, off)`: positional write, with the
host zero-filling any gap between the current end of file and `off`. -/
def writeAt (disk : List Nat) (off : Nat) (data : List Nat) : List Nat :=
  (disk.take off ++ List.replicate (off - disk.length) 0) ++ data ++ disk.drop (off + data.length)

/-- `source.copy(target, targetStart, sourceStart, sourceEnd)` from Node:
copies `min (sourceEnd - sourceStart) (target.length - targetStart)
(source.length - sourceStart)` bytes; never grows the target. -/
def bufCopy (source target : List Nat) (targetStart sourceStart sourceEnd : Nat) : List Nat :=
  let n := min (min (sourceEnd - sourceStart) (target.length - targetStart))
    (source.length - sourceStart)
  target.take targetStart ++ (source.drop sourceStart).take n ++ target.drop (targetStart + n)

theorem readAt_length (disk : List Nat) (off n : Nat) :
    (readAt disk off n).length = min n (disk.length - off) := by
  simp [readAt]

theorem getElem?_readAt (disk : List Nat) (off n j : Nat) :
    (readAt disk off n)[j]? = if j < n then disk[off + j]? else none := by
  unfold readAt
  by_cases h : j < n
  · rw [if_pos h, List.getElem?_take_of_lt h, List.getElem?_drop]
  · rw [if_neg h, List.getElem?_take_eq_none (by omega)]

theorem writeAt_prefix_length (disk : List Nat) (off : Nat) :
    (disk.take off ++ List.replicate (off - disk.length) 0).length = off ⊔ off := by
  simp [List.length_take]
  omega

theorem writeAt_decomp (disk : List Nat) (off : Nat) (data : List Nat) :
    writeAt disk off data =
      (disk.take off ++ List.replicate (off - disk.length) 0) ++
        (data ++ disk.drop (off + data.length)) := by
  simp [writeAt]

theorem writeAt_length (disk : List Nat) (off : Nat) (data : List Nat) :
    (writeAt disk off data).length = max disk.length (off + data.length) := by
  simp [writeAt, List.length_take]
  omega

theorem getElem?_writeAt (disk : List Nat) (off : Nat) (data : List Nat) (j : Nat) :
    (writeAt disk off data)[j]? =
      if j < off then (if j < disk.length then disk[j]? else some 0)
      else if j < off + data.length then data[j - off]?
      else disk[j]? := by
  have hpre : (disk.take off ++ List.replicate (off - disk.length) 0).length = off := by
    simp [List.length_take]; omega
  rw [writeAt_decomp]
  by_cases h1 : j < off
  · rw [List.getElem?_append_left (by omega), if_pos h1]
    by_cases h2 : j < disk.length
    · rw [if_pos h2, List.getElem?_append_left (by simp [List.length_take]; omega),
        List.getElem?_take_of_lt (by omega)]
    · rw [if_neg h2, List.getElem?_append_right (by simp [List.length_take]; omega)]
      rw [List.getElem?_replicate, if_pos (by simp [List.length_take]; omega)]
  · rw [List.getElem?_append_right (by omega), hpre, if_neg h1]
    by_cases h3 : j < off + data.length
    · rw [List.getElem?_append_left (by omega), if_pos h3]
    · rw [if_neg h3, List.getElem?_append_right (by omega), List.getElem?_drop]
      congr 1
      omega

/-- Reading back exactly the bytes just written. -/
theorem readAt_writeAt_self (disk : List Nat) (off : Nat) (data : List Nat) :
    readAt (writeAt disk off data) off data.length = data := by
  apply List.ext_getElem?
  intro j
  rw [getElem?_readAt, getElem?_writeAt]
  by_cases h : j < data.length
  · rw [if_pos h, if_neg (by omega), if_pos (by omega)]
    congr 1
    omega
  · rw [if_neg h, eq_comm, List.getElem?_eq_none_iff]
    omega

/-- A read entirely below the written offset, and inside the old file, is
unchanged by the write. -/
theorem readAt_writeAt_left (disk : List Nat) (off : Nat) (data : List Nat) (i n : Nat)
    (hlt : i + n ≤ off) (hin : i + n ≤ disk.length) :
    readAt (writeAt disk off data) i n = readAt disk i n := by
  apply List.ext_getElem?
  intro j
  rw [getElem?_readAt, getElem?_readAt, getElem?_writeAt]
  by_cases h : j < n
  · rw [if_pos h, if_pos h, if_pos (by omega), if_pos (by omega)]
  · rw [if_neg h, if_neg h]

/-- A read entirely above the written region is unchanged by the write. -/
theorem readAt_writeAt_right (disk : List Nat) (off : Nat) (data : List Nat) (i n : Nat)
    (hge : off + data.length ≤ i) :
    readAt (writeAt disk off data) i n = readAt disk i n := by
  apply List.ext_getElem?
  intro j
  rw [getElem?_readAt, getElem?_readAt, getElem?_writeAt]
  by_cases h : j < n
  · rw [if_pos h, if_pos h, if_neg (by omega), if_neg (by omega)]
  · rw [if_neg h, if_neg h]

theorem bufCopy_length (source target : List Nat) (tS sS sE : Nat) (h : tS ≤ target.length) :
    (bufCopy source target tS sS sE).length = target.length := by
  simp [bufCopy, List.length_take]
  omega

theorem getElem?_bufCopy (source target : List Nat) (tS sS sE j : Nat)
    (hfit : tS + (sE - sS) ≤ target.length) (hsrc : sS + (sE - sS) ≤ source.length) :
    (bufCopy source target tS sS sE)[j]? =
      if tS ≤ j ∧ j < tS + (sE - sS) then source[sS + (j - tS)]?
      else target[j]? := by
  unfold bufCopy
  have hn : min (min (sE - sS) (target.length - tS)) (source.length - sS) = sE - sS := by
    omega
  rw [hn]
  have hA : (target.take tS).length = tS := by
    rw [List.length_take]
    omega
  have hB : ((source.drop sS).take (sE - sS)).length = sE - sS := by
    rw [List.length_take, List.length_drop]
    omega
  have hAB : (target.take tS ++ (source.drop sS).take (sE - sS)).length = tS + (sE - sS) := by
    rw [List.length_append, hA, hB]
  by_cases h2 : j < tS + (sE - sS)
  · rw [List.getElem?_append_left (by rw [hAB]; omega)]
    by_cases h1 : j < tS
    · rw [List.getElem?_append_left (by rw [hA]; omega), List.getElem?_take_of_lt h1,
        if_neg (by omega)]
    · rw [List.getElem?_append_right (by rw [hA]; omega), hA,
        List.getElem?_take_of_lt (by omega), List.getElem?_drop, if_pos ⟨by omega, h2⟩]
  · rw [List.getElem?_append_right (by rw [hAB]; omega), hAB, List.getElem?_drop,
      if_neg (by omega)]
    congr 1
    omega

/-- POSIX open flags as used by Emscripten (Linux convention), from
`src/encrypted-fs.ts`. -/
def O_WRONLY : Nat := 1

/-- `O_RDWR` Linux flag constant from `src/encrypted-fs.ts`. -/
def O_RDWR : Nat := 2

/-- `O_CREAT` Linux flag constant from `src/encrypted-fs.ts`. -/
def O_CREAT : Nat := 64

/-- `O_EXCL` Linux flag constant from `src/encrypted-fs.ts`. -/
def O_EXCL : Nat := 128

/-- `O_TRUNC` Linux flag constant from `src/encrypted-fs.ts`. -/
def O_TRUNC : Nat := 512

/-- `O_APPEND` Linux flag constant from `src/encrypted-fs.ts`. -/
def O_APPEND : Nat := 1024

/-- `emFlagsToNode` from `src/encrypted-fs.ts` (numeric branch): converts
numeric POSIX flags to a Node.js string open mode. -/
def emFlagsToNode (flags : Nat) : String :=
  let isWrite := flags &&& O_WRONLY = O_WRONLY
  let isReadWrite := flags &&& O_RDWR = O_RDWR
  let isAppend := flags &&& O_APPEND = O_APPEND
  let isTrunc := flags &&& O_TRUNC = O_TRUNC
  let isCreate := flags &&& O_CREAT = O_CREAT
  let isExcl := flags &&& O_EXCL = O_EXCL
  let base :=
    if isAppend then (if isReadWrite then "a+" else "a")
    else if isTrunc then (if isReadWrite then "w+" else if isWrite then "w" else "w")
    else if isCreate ∧ isWrite ∧ ¬isReadWrite then "w"
    else if isReadWrite then "r+"
    else if isWrite then "w"
    else "r"
  if isExcl ∧ isCreate then
    if base = "w" then "wx"
    else if base = "w+" then "wx+"
    else if base = "a" then "ax"
    else if base = "a+" then "ax+"
    else base
  else base

/-- Node.js flag-string semantics (the host facility targeted by
`emFlagsToNode`): the modes that truncate an existing file on open. -/
def nodeFlagTruncates (flag : String) : Bool :=
  flag == "w" || flag == "wx" || flag == "w+" || flag == "wx+"

instance {ε α : Type} [DecidableEq ε] [DecidableEq α] : DecidableEq (Except ε α) := fun a b =>
  match a, b with
  | .ok x, .ok y =>
    if h : x = y then isTrue (by rw [h]) else isFalse (by intro hc; cases hc; exact h rfl)
  | .error x, .error y =>
    if h : x = y then isTrue (by rw [h]) else isFalse (by intro hc; cases hc; exact h rfl)
  | .ok _, .error _ => isFalse (by intro hc; cases hc)
  | .error _, .ok _ => isFalse (by intro hc; cases hc)

/-- POSIX-tagged errors raised by the filesystem facade
(`createError` in `src/encrypted-fs.ts`), plus uncaught codec throws. -/
inductive FsError where
  | ebadf : String → FsError
  | eio : String → FsError
  | eisdir : String → FsError
  | enoent : String → FsError
  | cryptoThrow : CryptoError → FsError
deriving DecidableEq, Repr

/-- Per-open-file state (the `OpenFile` record in `src/encrypted-fs.ts`).
`realFd = -1` is the sentinel for directory opens. -/
structure OpenFile where
  realFd : Int
  path : String
  flags : String
  position : Nat
  encrypted : Bool
  fileId : List Nat
deriving DecidableEq, Repr

/-- Instance-level mutable state relevant to teardown: the `destroyed` flag
and the key material buffers held by `EncryptedFS`. -/
structure CoreState where
  destroyed : Bool
  encKey : List Nat
  salt : List Nat
deriving DecidableEq, Repr

/-- `destroy` from `src/encrypted-fs.ts`: zeroes key material (preserving
buffer lengths, as `Buffer.fill(0)` does) and marks the instance destroyed;
returns immediately when already destroyed. -/
def destroy (s : CoreState) : CoreState :=
  if s.destroyed then s
  else
    { destroyed := true,
      encKey := List.replicate s.encKey.length 0,
      salt := List.replicate s.salt.length 0 }

/-- The constant message of every passphrase-verification failure in
`verifyOrCreateToken` (`src/encrypted-fs.ts`). -/
def invalidPassphraseMessage : String := "Invalid passphrase or corrupted encryption keys"

/-- `verifyOrCreateToken` from `src/encrypted-fs.ts`.  `existing` is the
token file content when the token path exists.  On creation the plaintext is
a `PAGE_SIZE` buffer holding the magic prefix; the freshly sampled IV is
passed explicitly.  Returns the (possibly created) token bytes; all
verification failures carry the one constant message. -/
def verifyOrCreateToken (existing : Option (List Nat)) (encKey iv : List Nat) :
    Except String (List Nat) :=
  match existing with
  | none =>
    match encryptPage (VERIFICATION_MAGIC ++ List.replicate (PAGE_SIZE - VERIFICATION_MAGIC.length) 0)
        0 encKey VERIFICATION_FILE_ID iv with
    | .ok encrypted => .ok encrypted
    | .error (.rangeError m) => .error m
    | .error (.sizeError m) => .error m
    | .error (.authError m) => .error m
  | some data =>
    if data.length ≠ ENCRYPTED_PAGE_SIZE then .error invalidPassphraseMessage
    else
      match decryptPage data 0 encKey VERIFICATION_FILE_ID with
      | .error _ => .error invalidPassphraseMessage
      | .ok decrypted =>
        if decrypted.take VERIFICATION_MAGIC.length = VERIFICATION_MAGIC then .ok data
        else .error invalidPassphraseMessage

/-- `logicalSizeFromPhysical` from `src/encrypted-fs.ts`: converts a physical
on-disk size to the logical size reported to PostgreSQL, failing with `EIO`
on a payload that is not a whole number of encrypted pages. -/
def logicalSizeFromPhysical (physicalSize : Nat) : Except FsError Nat :=
  if physicalSize < FILE_HEADER_SIZE then .ok 0
  else
    let payload := physicalSize - FILE_HEADER_SIZE
    if payload = 0 then .ok 0
    else
      let fullPages := payload / ENCRYPTED_PAGE_SIZE
      let tail := payload % ENCRYPTED_PAGE_SIZE
      if tail ≠ 0 then
        .error (.eio ("Partial encrypted page (physicalSize=" ++ toString physicalSize ++
          ", tail=" ++ toString tail ++ ")"))
      else .ok (fullPages * PAGE_SIZE)

/-- The size field computed by `fstat` in `src/encrypted-fs.ts`:
directory handles and plaintext files pass the host size through; regular
files on encrypted paths (`stats.isFile() && shouldEncrypt(path)`, the
`isRegularEncrypted` argument) report the logical size. -/
def fstatSize (file : Option OpenFile) (physicalSize : Nat) (isRegularEncrypted : Bool) :
    Except FsError Nat :=
  match file with
  | none => .error (.ebadf "fstat")
  | some f =>
    if f.realFd = -1 then .ok physicalSize
    else if isRegularEncrypted then logicalSizeFromPhysical physicalSize
    else .ok physicalSize

/-- The encrypted-page region of page `i`:
`[FILE_HEADER_SIZE + i*ENCRYPTED_PAGE_SIZE, ... + ENCRYPTED_PAGE_SIZE)`. -/
def pageSlot (disk : List Nat) (i : Nat) : List Nat :=
  readAt disk (FILE_HEADER_SIZE + i * ENCRYPTED_PAGE_SIZE) ENCRYPTED_PAGE_SIZE

/-- The value of the byte at logical position `q` of an encrypted file:
byte `q % PAGE_SIZE` of the decryption of page `q / PAGE_SIZE`; `none` when
that page is absent or fails to decrypt. -/
def logicalByte (disk encKey fileId : List Nat) (q : Nat) : Option Nat :=
  match decryptPage (pageSlot disk (q / PAGE_SIZE)) (q / PAGE_SIZE) encKey fileId with
  | .ok pt => pt[q % PAGE_SIZE]?
  | .error _ => none

/-- The encrypted-path loop of `read` in `src/encrypted-fs.ts`: page by page,
read `ENCRYPTED_PAGE_SIZE` bytes, stop at EOF, fail on a short page, decrypt,
copy the needed window into the destination buffer.  `fuel` counts the
remaining pages (`endPage + 1 - pageNo`). -/
def readEncLoop (disk encKey fileId : List Nat) (offset logicalPos length : Nat)
    (pageNo brt : Nat) (buffer : List Nat) (fuel : Nat) : Except FsError (List Nat × Nat) :=
  match fuel with
  | 0 => .ok (buffer, brt)
  | fuel' + 1 =>
    let physicalOffset := FILE_HEADER_SIZE + pageNo * ENCRYPTED_PAGE_SIZE
    let encryptedPage := readAt disk physicalOffset ENCRYPTED_PAGE_SIZE
    let bytesRead := encryptedPage.length
    if bytesRead = 0 then .ok (buffer, brt)
    else if bytesRead < ENCRYPTED_PAGE_SIZE then
      .error (.eio ("Short encrypted page read (expected " ++ toString ENCRYPTED_PAGE_SIZE ++
        ", got " ++ toString bytesRead ++ ") at page " ++ toString pageNo))
    else
      match decryptPage encryptedPage pageNo encKey fileId with
      | .error _ =>
        .error (.eio ("Decryption failed for page " ++ toString pageNo ++ ", file may be corrupt"))
      | .ok decryptedPage =>
        let pageOffset := logicalPos + brt - pageNo * PAGE_SIZE
        let bytesToCopy := min (length - brt) (PAGE_SIZE - pageOffset)
        let buffer' := bufCopy decryptedPage buffer (offset + brt) pageOffset
          (pageOffset + bytesToCopy)
        readEncLoop disk encKey fileId offset logicalPos length (pageNo + 1)
          (brt + bytesToCopy) buffer' fuel'

/-- `read` from `src/encrypted-fs.ts`.  `disk` is the current byte content of
the file behind the handle's real descriptor; the result carries the updated
destination buffer, the return value, and the updated handle. -/
def fsRead (s : CoreState) (file : Option OpenFile) (disk : List Nat)
    (buffer : List Nat) (offset length : Nat) (position : Option Int) :
    Except FsError (List Nat × Nat × OpenFile) :=
  match file with
  | none => .error (.ebadf "read")
  | some f =>
    if s.destroyed then .error (.eio "filesystem has been destroyed")
    else if length = 0 then .ok (buffer, 0, f)
    else if f.realFd = -1 then .error (.eisdir "read from directory")
    else
      let logicalPos : Nat :=
        match position with
        | none => f.position
        | some p => if p < 0 then f.position else p.toNat
      if !f.encrypted then
        let chunk := readAt disk logicalPos length
        let buffer' := bufCopy chunk buffer offset 0 chunk.length
        .ok (buffer', chunk.length, { f with position := logicalPos + chunk.length })
      else
        let startPage := logicalPos / PAGE_SIZE
        let endPage := (logicalPos + length - 1) / PAGE_SIZE
        match readEncLoop disk s.encKey f.fileId offset logicalPos length startPage 0 buffer
            (endPage + 1 - startPage) with
        | .error e => .error e
        | .ok (buffer', brt) => .ok (buffer', brt, { f with position := logicalPos + brt })

/-- The encrypted-path loop of `write` in `src/encrypted-fs.ts`: page by
page, read the existing encrypted page when its offset is inside the current
physical size; a full page decrypts (failure is fatal), anything else
zero-initialises the plaintext; overlay the caller's window, re-encrypt with
a fresh IV (`ivs pageNo`), write back.  Returns the new disk bytes and the
byte count. -/
def writeEncLoop (encKey fileId : List Nat) (ivs : Nat → List Nat)
    (buffer : List Nat) (offset logicalPos length : Nat)
    (disk : List Nat) (pageNo bwt : Nat) (fuel : Nat) : Except FsError (List Nat × Nat) :=
  match fuel with
  | 0 => .ok (disk, bwt)
  | fuel' + 1 =>
    let physicalOffset := FILE_HEADER_SIZE + pageNo * ENCRYPTED_PAGE_SIZE
    let encryptedPageData :=
      if physicalOffset < disk.length then readAt disk physicalOffset ENCRYPTED_PAGE_SIZE
      else []
    let rmw : Except FsError (List Nat) :=
      if encryptedPageData.length = ENCRYPTED_PAGE_SIZE then
        match decryptPage encryptedPageData pageNo encKey fileId with
        | .error _ =>
          .error (.eio ("Decryption failed during write for page " ++ toString pageNo ++
            ", file may be corrupt"))
        | .ok pagePlain => .ok pagePlain
      else .ok (List.replicate PAGE_SIZE 0)
    match rmw with
    | .error e => .error e
    | .ok pagePlain =>
      let pageOffset := logicalPos + bwt - pageNo * PAGE_SIZE
      let bytesToWrite := min (length - bwt) (PAGE_SIZE - pageOffset)
      let newPlain := bufCopy buffer pagePlain pageOffset (offset + bwt)
        (offset + bwt + bytesToWrite)
      match encryptPage newPlain pageNo encKey fileId (ivs pageNo) with
      | .error e => .error (.cryptoThrow e)
      | .ok encryptedNewPage =>
        let disk' := writeAt disk physicalOffset (encryptedNewPage.take ENCRYPTED_PAGE_SIZE)
        writeEncLoop encKey fileId ivs buffer offset logicalPos length disk' (pageNo + 1)
          (bwt + bytesToWrite) fuel'

/-- `write` from `src/encrypted-fs.ts`, mirroring `fsRead`'s embedding. -/
def fsWrite (s : CoreState) (file : Option OpenFile) (disk : List Nat) (ivs : Nat → List Nat)
    (buffer : List Nat) (offset length : Nat) (position : Option Int) :
    Except FsError (List Nat × Nat × OpenFile) :=
  match file with
  | none => .error (.ebadf "write")
  | some f =>
    if s.destroyed then .error (.eio "filesystem has been destroyed")
    else if length = 0 then .ok (disk, 0, f)
    else if f.realFd = -1 then .error (.eisdir "write to directory")
    else
      let logicalPos : Nat :=
        match position with
        | none => f.position
        | some p => if p < 0 then f.position else p.toNat
      if !f.encrypted then
        let data := (buffer.drop offset).take length
        let disk' := writeAt disk logicalPos data
        .ok (disk', data.length, { f with position := logicalPos + data.length })
      else
        let startPage := logicalPos / PAGE_SIZE
        let endPage := (logicalPos + length - 1) / PAGE_SIZE
        match writeEncLoop s.encKey f.fileId ivs buffer offset logicalPos length disk startPage 0
            (endPage + 1 - startPage) with
        | .error e => .error e
        | .ok (disk', bwt) => .ok (disk', bwt, { f with position := logicalPos + bwt })

/-- The page-append loop of `truncate` in `src/encrypted-fs.ts`: encrypts a
fresh all-zero plaintext page for each page number in
`[pageNo, newPageCount)` and writes it at its physical offset. -/
def truncExtendLoop (encKey fileId : List Nat) (ivs : Nat → List Nat)
    (disk : List Nat) (pageNo : Nat) (fuel : Nat) : Except FsError (List Nat) :=
  match fuel with
  | 0 => .ok disk
  | fuel' + 1 =>
    match encryptPage (List.replicate PAGE_SIZE 0) pageNo encKey fileId (ivs pageNo) with
    | .error e => .error (.cryptoThrow e)
    | .ok encrypted =>
      let off := FILE_HEADER_SIZE + pageNo * ENCRYPTED_PAGE_SIZE
      let disk' := writeAt disk off (encrypted.take encrypted.length)
      truncExtendLoop encKey fileId ivs disk' (pageNo + 1) fuel'

/-- `truncate` from `src/encrypted-fs.ts` (encrypted-path), on the byte
content of an existing file at the resolved path.  On growth it appends
freshly encrypted zero pages using the file ID read from the header; on
shrink it truncates the host file to the exact page boundary (the host
zero-fills when asked to grow, as `ftruncate` does). -/
def fsTruncate (encKey : List Nat) (ivs : Nat → List Nat) (disk : List Nat) (len : Nat) :
    Except FsError (List Nat) :=
  let currentPhysical := disk.length
  let currentPageCount :=
    if currentPhysical > FILE_HEADER_SIZE then
      (currentPhysical - FILE_HEADER_SIZE) / ENCRYPTED_PAGE_SIZE
    else 0
  let newPageCount := (len + PAGE_SIZE - 1) / PAGE_SIZE
  if newPageCount > currentPageCount then
    let fileId := readAt disk SALT_SIZE FILE_ID_SIZE
    if fileId.length ≠ FILE_ID_SIZE then .error (.eio "Could not read file ID from header")
    else truncExtendLoop encKey fileId ivs disk currentPageCount (newPageCount - currentPageCount)
  else
    let newPhysicalSize := FILE_HEADER_SIZE + newPageCount * ENCRYPTED_PAGE_SIZE
    if newPhysicalSize ≤ disk.length then .ok (disk.take newPhysicalSize)
    else .ok (disk ++ List.replicate (newPhysicalSize - disk.length) 0)

theorem destroy_destroyed (s : CoreState) : (destroy s).destroyed = true := by
  by_cases h : s.destroyed = true <;> simp [destroy, h]

/-- C9: teardown is idempotent, and after `destroy` every read and every
write on any open handle (any file present in the open-file table) fails
with the `EIO` error, whatever the arguments. -/
theorem C9_destroy_idempotent_and_post_destroy_eio (s : CoreState) (f : OpenFile)
    (disk buffer : List Nat) (ivs : Nat → List Nat) (offset length : Nat)
    (position : Option Int) :
    destroy (destroy s) = destroy s ∧
    fsRead (destroy s) (some f) disk buffer offset length position =
      .error (.eio "filesystem has been destroyed") ∧
    fsWrite (destroy s) (some f) disk ivs buffer offset length position =
      .error (.eio "filesystem has been destroyed") := by
  refine ⟨?_, ?_, ?_⟩
  · by_cases h : s.destroyed = true <;> simp [destroy, h]
  · simp [fsRead, destroy_destroyed]
  · simp [fsWrite, destroy_destroyed]

/-- C10: a negative `position` argument makes `read` and `write` behave
exactly as when the position is absent (`null`/`undefined`): the handle's
current logical position is used and advanced. -/
theorem C10_negative_position_uses_handle_position (s : CoreState) (f : OpenFile)
    (disk buffer : List Nat) (ivs : Nat → List Nat) (offset length : Nat)
    (p : Int) (hp : p < 0) :
    fsRead s (some f) disk buffer offset length (some p) =
      fsRead s (some f) disk buffer offset length none ∧
    fsWrite s (some f) disk ivs buffer offset length (some p) =
      fsWrite s (some f) disk ivs buffer offset length none := by
  constructor
  · simp only [fsRead, hp, if_pos]
  · simp only [fsWrite, hp, if_pos]

/-- Witness for C10 at a concrete state: handle at position 3, reading and
writing with position -1 equals reading and writing with no position. -/
theorem C10_negative_position_uses_handle_position_witness :
    (-1 : Int) < 0 ∧
    (fsRead ⟨false, [7], [9]⟩ (some ⟨5, "f", "r+", 3, false, []⟩) [1, 2, 3, 4] [8, 8] 0 2
        (some (-1)) =
      fsRead ⟨false, [7], [9]⟩ (some ⟨5, "f", "r+", 3, false, []⟩) [1, 2, 3, 4] [8, 8] 0 2 none ∧
    fsWrite ⟨false, [7], [9]⟩ (some ⟨5, "f", "r+", 3, false, []⟩) [1, 2, 3, 4] (fun _ => [])
        [8, 8] 0 2 (some (-1)) =
      fsWrite ⟨false, [7], [9]⟩ (some ⟨5, "f", "r+", 3, false, []⟩) [1, 2, 3, 4] (fun _ => [])
        [8, 8] 0 2 none) :=
  ⟨by decide,
    C10_negative_position_uses_handle_position ⟨false, [7], [9]⟩ ⟨5, "f", "r+", 3, false, []⟩
      [1, 2, 3, 4] [8, 8] (fun _ => []) 0 2 (-1) (by decide)⟩

/-- C5 (amended statement is the claim itself): every verification failure on
a present token — wrong length, failed decryption, or magic-prefix mismatch —
produces the error whose message is exactly the constant text, for every key
and every token content. -/
theorem C5_invalid_passphrase_constant_error (data encKey iv : List Nat)
    (h : data.length ≠ ENCRYPTED_PAGE_SIZE ∨
      (∃ e, decryptPage data 0 encKey VERIFICATION_FILE_ID = .error e) ∨
      (∃ pt, decryptPage data 0 encKey VERIFICATION_FILE_ID = .ok pt ∧
        pt.take VERIFICATION_MAGIC.length ≠ VERIFICATION_MAGIC)) :
    verifyOrCreateToken (some data) encKey iv = .error invalidPassphraseMessage ∧
    invalidPassphraseMessage = "Invalid passphrase or corrupted encryption keys" := by
  refine ⟨?_, rfl⟩
  have hbody : verifyOrCreateToken (some data) encKey iv =
      (if data.length ≠ ENCRYPTED_PAGE_SIZE then .error invalidPassphraseMessage
      else
        match decryptPage data 0 encKey VERIFICATION_FILE_ID with
        | .error _ => .error invalidPassphraseMessage
        | .ok decrypted =>
          if decrypted.take VERIFICATION_MAGIC.length = VERIFICATION_MAGIC then .ok data
          else .error invalidPassphraseMessage) := rfl
  rw [hbody]
  by_cases hlen : data.length = ENCRYPTED_PAGE_SIZE
  · rw [if_neg (fun hc => hc hlen)]
    rcases h with h | ⟨e, he⟩ | ⟨pt, hpt, hmagic⟩
    · exact absurd hlen h
    · rw [he]
    · rw [hpt]
      simp only [if_neg hmagic]
  · rw [if_pos hlen]

/-- Witness for C5: a token of the wrong length (empty file). -/
theorem C5_invalid_passphrase_constant_error_witness :
    (([] : List Nat).length ≠ ENCRYPTED_PAGE_SIZE ∨
      (∃ e, decryptPage [] 0 [] VERIFICATION_FILE_ID = .error e) ∨
      (∃ pt, decryptPage [] 0 [] VERIFICATION_FILE_ID = .ok pt ∧
        pt.take VERIFICATION_MAGIC.length ≠ VERIFICATION_MAGIC)) ∧
    (verifyOrCreateToken (some []) [] [] = .error invalidPassphraseMessage ∧
      invalidPassphraseMessage = "Invalid passphrase or corrupted encryption keys") :=
  ⟨Or.inl (by decide),
    C5_invalid_passphrase_constant_error [] [] [] (Or.inl (by decide))⟩

/-- C4 counterexample: at physical size 49 (at least `FILE_HEADER_SIZE`, but
a payload that is not a whole number of encrypted pages) `fstat` does not
report `floor((49-48)/8220)*8192 = 0`; it fails with `EIO`. -/
theorem C4_counterexample :
    FILE_HEADER_SIZE ≤ 49 ∧
    fstatSize (some ⟨5, "base/1/16384", "r+", 0, true, []⟩) 49 true =
      .error (.eio "Partial encrypted page (physicalSize=49, tail=1)") := by
  constructor
  · decide
  · decide

/-- C4 (amended): for a regular encrypted file handle, `fstat` reports 0 when
the physical size is below `FILE_HEADER_SIZE`; reports
`(physical − FILE_HEADER_SIZE) / ENCRYPTED_PAGE_SIZE * PAGE_SIZE` when the
payload is a whole number of encrypted pages; and fails with `EIO` (partial
page) otherwise. -/
theorem C4_fstat_logical_size (f : OpenFile) (phys : Nat) (hfd : f.realFd ≠ -1) :
    (phys < FILE_HEADER_SIZE → fstatSize (some f) phys true = .ok 0) ∧
    (FILE_HEADER_SIZE ≤ phys → (phys - FILE_HEADER_SIZE) % ENCRYPTED_PAGE_SIZE = 0 →
      fstatSize (some f) phys true =
        .ok ((phys - FILE_HEADER_SIZE) / ENCRYPTED_PAGE_SIZE * PAGE_SIZE)) ∧
    (FILE_HEADER_SIZE ≤ phys → (phys - FILE_HEADER_SIZE) % ENCRYPTED_PAGE_SIZE ≠ 0 →
      ∃ msg, fstatSize (some f) phys true = .error (.eio msg)) := by
  have hunfold : fstatSize (some f) phys true = logicalSizeFromPhysical phys := by
    simp [fstatSize, hfd]
  refine ⟨?_, ?_, ?_⟩
  · intro hlt
    rw [hunfold]
    unfold logicalSizeFromPhysical
    rw [if_pos hlt]
  · intro hge hmod
    rw [hunfold]
    unfold logicalSizeFromPhysical
    rw [if_neg (by omega)]
    by_cases hz : phys - FILE_HEADER_SIZE = 0
    · rw [if_pos hz, hz]
      simp
    · rw [if_neg hz]
      simp only [if_neg (by omega : ¬(phys - FILE_HEADER_SIZE) % ENCRYPTED_PAGE_SIZE ≠ 0)]
  · intro hge hmod
    rw [hunfold]
    unfold logicalSizeFromPhysical
    rw [if_neg (by omega), if_neg (by
      intro hz
      rw [hz] at hmod
      simp [Nat.zero_mod] at hmod), if_pos hmod]
    exact ⟨_, rfl⟩

/-- Witness for C4 at concrete sizes 47 (below header), 48 + 8220 (one full
page) and 50 (partial payload). -/
theorem C4_fstat_logical_size_witness :
    ((5 : Int) ≠ -1) ∧
    (47 < FILE_HEADER_SIZE ∧
      fstatSize (some ⟨5, "base/1/16384", "r+", 0, true, []⟩) 47 true = .ok 0) ∧
    (FILE_HEADER_SIZE ≤ 8268 ∧ (8268 - FILE_HEADER_SIZE) % ENCRYPTED_PAGE_SIZE = 0 ∧
      fstatSize (some ⟨5, "base/1/16384", "r+", 0, true, []⟩) 8268 true =
        .ok ((8268 - FILE_HEADER_SIZE) / ENCRYPTED_PAGE_SIZE * PAGE_SIZE)) :=
  ⟨by decide,
    ⟨by decide, (C4_fstat_logical_size ⟨5, "base/1/16384", "r+", 0, true, []⟩ 47
      (by decide)).1 (by decide)⟩,
    ⟨by decide, by decide, (C4_fstat_logical_size ⟨5, "base/1/16384", "r+", 0, true, []⟩ 8268
      (by decide)).2.1 (by decide) (by decide)⟩⟩

/-- C8 counterexample: `O_WRONLY ||| O_CREAT = 65` carries neither `O_TRUNC`
nor `O_APPEND`, yet is mapped to the Node mode `"w"`, which truncates an
existing file. -/
theorem C8_counterexample :
    (O_WRONLY ||| O_CREAT) &&& O_TRUNC ≠ O_TRUNC ∧
    (O_WRONLY ||| O_CREAT) &&& O_APPEND ≠ O_APPEND ∧
    emFlagsToNode (O_WRONLY ||| O_CREAT) = "w" ∧
    nodeFlagTruncates "w" = true := by
  refine ⟨by decide, by decide, by decide, by decide⟩

/-- C8 (amended): append and exclusive-create requests map to the Node
append modes, `O_TRUNC` maps to truncating modes, and an open without
`O_TRUNC` and without `O_APPEND` maps to a non-truncating mode — except for
a write-only open (`O_WRONLY` set, `O_RDWR` clear), which the source maps to
the truncating mode `"w"`/`"wx"`. -/
theorem C8_no_trunc_no_append_write_only_exception (flags : Nat)
    (htr : flags &&& O_TRUNC ≠ O_TRUNC) (hap : flags &&& O_APPEND ≠ O_APPEND)
    (hw : flags &&& O_WRONLY = O_WRONLY → flags &&& O_RDWR = O_RDWR) :
    nodeFlagTruncates (emFlagsToNode flags) = false := by
  unfold emFlagsToNode
  simp only [if_neg hap, if_neg htr]
  by_cases hrw : flags &&& O_RDWR = O_RDWR
  · simp [hrw, nodeFlagTruncates]
  · have hwr : ¬flags &&& O_WRONLY = O_WRONLY := fun hc => hrw (hw hc)
    simp [hrw, hwr, nodeFlagTruncates]

/-- Witness for C8 at `flags = O_RDWR`. -/
theorem C8_no_trunc_no_append_write_only_exception_witness :
    (O_RDWR &&& O_TRUNC ≠ O_TRUNC ∧ O_RDWR &&& O_APPEND ≠ O_APPEND ∧
      (O_RDWR &&& O_WRONLY = O_WRONLY → O_RDWR &&& O_RDWR = O_RDWR)) ∧
    nodeFlagTruncates (emFlagsToNode O_RDWR) = false :=
  ⟨⟨by decide, by decide, fun _ => by decide⟩,
    C8_no_trunc_no_append_write_only_exception O_RDWR (by decide) (by decide)
      (fun _ => by decide)⟩

/-- The modelled tag is never the all-zero tag: its first two bytes are
consecutive residues mod 256 and cannot both be zero. -/
theorem gcmTag_ne_zero_tag (key iv aad ct : List Nat) :
    gcmTag key iv aad ct ≠ List.replicate 16 0 := by
  intro h
  have h0 := congrArg (fun l : List Nat => l[0]?) h
  have h1 := congrArg (fun l : List Nat => l[1]?) h
  simp [gcmTag, AUTH_TAG_SIZE] at h0 h1
  omega

/-- An all-zero encrypted page always fails authentication, with the
page-number-bearing message. -/
theorem decryptPage_zero_page_auth_fail (pageNo : Nat) (encKey fileId : List Nat)
    (h : pageNo ≤ 0xffffffff) :
    decryptPage (List.replicate ENCRYPTED_PAGE_SIZE 0) pageNo encKey fileId =
      .error (.authError (decryptErrorMessage pageNo)) := by
  unfold decryptPage
  rw [if_neg (by omega), if_neg (by simp)]
  have htag : ((List.replicate ENCRYPTED_PAGE_SIZE (0 : Nat)).drop IV_SIZE).take AUTH_TAG_SIZE =
      List.replicate 16 0 := by
    rw [List.drop_replicate, List.take_replicate]
    congr 1
  simp only [htag, if_neg (gcmTag_ne_zero_tag _ _ _ _)]

/-- C6 counterexample: two authentication failures (all-zero encrypted pages,
checked at page 0 and at page 1) carry different error texts, so the text is
not one constant string across inputs — it embeds the page number. -/
theorem C6_counterexample :
    decryptPage (List.replicate ENCRYPTED_PAGE_SIZE 0) 0 [] [] =
      .error (.authError (decryptErrorMessage 0)) ∧
    decryptPage (List.replicate ENCRYPTED_PAGE_SIZE 0) 1 [] [] =
      .error (.authError (decryptErrorMessage 1)) ∧
    decryptErrorMessage 0 ≠ decryptErrorMessage 1 :=
  ⟨decryptPage_zero_page_auth_fail 0 [] [] (by omega),
    decryptPage_zero_page_auth_fail 1 [] [] (by omega),
    by decide⟩

/-- C6 (amended): every authentication failure of `decryptPage` — whatever
the mismatched component (tag, IV, ciphertext, AAD or key) — produces the
`authError` whose text is `decryptErrorMessage pageNo`, determined solely by
the caller-supplied page number; it carries no key material and does not
distinguish the cause. -/
theorem C6_auth_error_constant_text (encryptedPage : List Nat) (pageNo : Nat)
    (encKey fileId : List Nat) (hpage : pageNo ≤ 0xffffffff)
    (hlen : encryptedPage.length = ENCRYPTED_PAGE_SIZE)
    (hmismatch : gcmTag encKey (encryptedPage.take IV_SIZE)
        (fileId ++ writeUInt32BE pageNo) (encryptedPage.drop (IV_SIZE + AUTH_TAG_SIZE)) ≠
      (encryptedPage.drop IV_SIZE).take AUTH_TAG_SIZE) :
    decryptPage encryptedPage pageNo encKey fileId =
      .error (.authError (decryptErrorMessage pageNo)) := by
  unfold decryptPage
  rw [if_neg (by omega), if_neg (fun hc => hc hlen), if_neg hmismatch]

/-- Witness for C6: the all-zero encrypted page fails its tag check at page 0
and yields exactly the page-0 message. -/
theorem C6_auth_error_constant_text_witness :
    ((0 : Nat) ≤ 0xffffffff ∧
      (List.replicate ENCRYPTED_PAGE_SIZE (0 : Nat)).length = ENCRYPTED_PAGE_SIZE ∧
      gcmTag [] ((List.replicate ENCRYPTED_PAGE_SIZE (0 : Nat)).take IV_SIZE)
          ([] ++ writeUInt32BE 0)
          ((List.replicate ENCRYPTED_PAGE_SIZE (0 : Nat)).drop (IV_SIZE + AUTH_TAG_SIZE)) ≠
        ((List.replicate ENCRYPTED_PAGE_SIZE (0 : Nat)).drop IV_SIZE).take AUTH_TAG_SIZE) ∧
    decryptPage (List.replicate ENCRYPTED_PAGE_SIZE 0) 0 [] [] =
      .error (.authError (decryptErrorMessage 0)) :=
  ⟨⟨by omega, by simp,
    by
      have htag : ((List.replicate ENCRYPTED_PAGE_SIZE (0 : Nat)).drop IV_SIZE).take
          AUTH_TAG_SIZE = List.replicate 16 0 := by
        rw [List.drop_replicate, List.take_replicate]
        congr 1
      rw [htag]
      exact gcmTag_ne_zero_tag _ _ _ _⟩,
    C6_auth_error_constant_text (List.replicate ENCRYPTED_PAGE_SIZE 0) 0 [] []
      (by omega) (by simp)
      (by
        have htag : ((List.replicate ENCRYPTED_PAGE_SIZE (0 : Nat)).drop IV_SIZE).take
            AUTH_TAG_SIZE = List.replicate 16 0 := by
          rw [List.drop_replicate, List.take_replicate]
          congr 1
        rw [htag]
        exact gcmTag_ne_zero_tag _ _ _ _)⟩

theorem readAt_eq_nil (disk : List Nat) (off n : Nat) (h : disk.length ≤ off) :
    readAt disk off n = [] := by
  unfold readAt
  rw [List.drop_eq_nil_of_le h, List.take_nil]

/-- Every successful decryption yields exactly `PAGE_SIZE` bytes. -/
theorem decryptPage_ok_length (ep : List Nat) (n : Nat) (k f pt : List Nat)
    (h : decryptPage ep n k f = .ok pt) : pt.length = PAGE_SIZE := by
  unfold decryptPage at h
  by_cases h1 : n > 0xffffffff
  · rw [if_pos h1] at h
    exact absurd h (by simp)
  · rw [if_neg h1] at h
    by_cases h2 : ep.length ≠ ENCRYPTED_PAGE_SIZE
    · rw [if_pos h2] at h
      exact absurd h (by simp)
    · rw [if_neg h2] at h
      push_neg at h2
      by_cases h3 : gcmTag k (ep.take IV_SIZE) (f ++ writeUInt32BE n)
          (ep.drop (IV_SIZE + AUTH_TAG_SIZE)) = (ep.drop IV_SIZE).take AUTH_TAG_SIZE
      · have h' : Except.ok (List.zipWith Nat.xor (ep.drop (IV_SIZE + AUTH_TAG_SIZE))
            (keystream k (ep.take IV_SIZE) PAGE_SIZE)) = Except.ok (ε := CryptoError) pt := by
          rw [← h]
          exact (if_pos h3).symm
        cases h'
        rw [List.length_zipWith, List.length_drop, h2, keystream_length]
        rfl
      · have h' : Except.error (ε := CryptoError)
            (CryptoError.authError (decryptErrorMessage n)) = Except.ok pt := by
          rw [← h]
          exact (if_neg h3).symm
        exact absurd h' (by simp)

/-- A `PAGE_SIZE` plaintext encrypts to an `ENCRYPTED_PAGE_SIZE` buffer that
decrypts back to it. -/
theorem encryptPage_roundtrip (pt : List Nat) (n : Nat) (k f iv : List Nat)
    (hlen : pt.length = PAGE_SIZE) (hn : n ≤ 0xffffffff) (hiv : iv.length = IV_SIZE) :
    ∃ enc, encryptPage pt n k f iv = .ok enc ∧ enc.length = ENCRYPTED_PAGE_SIZE ∧
      decryptPage enc n k f = .ok pt := by
  have hb := decryptPage_encryptPage pt n k f iv hn hiv
  rw [encryptPage_ok pt n k f iv hn] at hb ⊢
  simp only [Except.bind] at hb
  refine ⟨_, rfl, ?_, ?_⟩
  · rw [List.length_append, List.length_append, hiv, gcmTag_length, List.length_zipWith,
      padPage_length, keystream_length, Nat.min_self]
    decide
  · rw [hb, List.take_of_length_le (le_of_eq hlen)]
    have : PAGE_SIZE - pt.length = 0 := by omega
    rw [this, List.replicate_zero, List.append_nil]

theorem pageSlot_writeAt_self (disk : List Nat) (i : Nat) (data : List Nat)
    (hlen : data.length = ENCRYPTED_PAGE_SIZE) :
    pageSlot (writeAt disk (FILE_HEADER_SIZE + i * ENCRYPTED_PAGE_SIZE) data) i = data := by
  unfold pageSlot
  rw [← hlen]
  exact readAt_writeAt_self disk _ data

theorem pageSlot_writeAt_lt (disk : List Nat) (i j : Nat) (data : List Nat) (hij : i < j)
    (hin : FILE_HEADER_SIZE + (i + 1) * ENCRYPTED_PAGE_SIZE ≤ disk.length) :
    pageSlot (writeAt disk (FILE_HEADER_SIZE + j * ENCRYPTED_PAGE_SIZE) data) i =
      pageSlot disk i := by
  unfold pageSlot
  have hE : ENCRYPTED_PAGE_SIZE = 8220 := rfl
  have hF : FILE_HEADER_SIZE = 48 := rfl
  apply readAt_writeAt_left
  · rw [hE, hF] at *
    have : (i + 1) * 8220 ≤ j * 8220 := Nat.mul_le_mul_right 8220 hij
    omega
  · rw [hE, hF] at hin ⊢
    omega

theorem pageSlot_writeAt_gt (disk : List Nat) (i j : Nat) (data : List Nat) (hij : j < i)
    (hlen : data.length = ENCRYPTED_PAGE_SIZE) :
    pageSlot (writeAt disk (FILE_HEADER_SIZE + j * ENCRYPTED_PAGE_SIZE) data) i =
      pageSlot disk i := by
  unfold pageSlot
  apply readAt_writeAt_right
  rw [hlen]
  have hE : ENCRYPTED_PAGE_SIZE = 8220 := rfl
  have hF : FILE_HEADER_SIZE = 48 := rfl
  rw [hE, hF]
  have : (j + 1) * 8220 ≤ i * 8220 := Nat.mul_le_mul_right 8220 hij
  omega

theorem pageSlot_beyond (disk : List Nat) (i : Nat)
    (h : disk.length ≤ FILE_HEADER_SIZE + i * ENCRYPTED_PAGE_SIZE) :
    pageSlot disk i = [] :=
  readAt_eq_nil disk _ _ h

/-- A full page slot inside a well-formed file. -/
theorem pageSlot_length_of_lt (disk : List Nat) (i m : Nat)
    (hwf : disk.length = FILE_HEADER_SIZE + m * ENCRYPTED_PAGE_SIZE) (him : i < m) :
    (pageSlot disk i).length = ENCRYPTED_PAGE_SIZE := by
  unfold pageSlot
  rw [readAt_length, hwf]
  have hE : ENCRYPTED_PAGE_SIZE = 8220 := rfl
  have hF : FILE_HEADER_SIZE = 48 := rfl
  rw [hE, hF]
  have : (i + 1) * 8220 ≤ m * 8220 := Nat.mul_le_mul_right 8220 him
  omega

theorem logicalByte_congr (disk disk' encKey fileId : List Nat) (q : Nat)
    (h : pageSlot disk' (q / PAGE_SIZE) = pageSlot disk (q / PAGE_SIZE)) :
    logicalByte disk' encKey fileId q = logicalByte disk encKey fileId q := by
  unfold logicalByte
  rw [h]

/-- One iteration of the write loop: under a well-formed disk, the iteration
never fails; it decrypts the existing page (when `pageNo < m`) or starts from
an all-zero plaintext, overlays the caller's window, and hands the loop the
disk updated at exactly page `pageNo`'s slot with a buffer that decrypts back
to the overlaid plaintext. -/
theorem writeEncLoop_step (encKey fileId : List Nat) (ivs : Nat → List Nat)
    (buffer : List Nat) (offset pos L : Nat) (disk : List Nat) (pageNo bwt fuel m : Nat)
    (hwf : disk.length = FILE_HEADER_SIZE + m * ENCRYPTED_PAGE_SIZE)
    (hiv : (ivs pageNo).length = IV_SIZE)
    (hrange : pageNo ≤ 0xffffffff)
    (hoff : pos + bwt - pageNo * PAGE_SIZE ≤ PAGE_SIZE)
    (hdec : pageNo < m →
      ∃ pt, decryptPage (pageSlot disk pageNo) pageNo encKey fileId = .ok pt) :
    ∃ pagePlain enc,
      pagePlain.length = PAGE_SIZE ∧
      (pageNo < m → decryptPage (pageSlot disk pageNo) pageNo encKey fileId = .ok pagePlain) ∧
      (m ≤ pageNo → pagePlain = List.replicate PAGE_SIZE 0) ∧
      enc.length = ENCRYPTED_PAGE_SIZE ∧
      decryptPage enc pageNo encKey fileId =
        .ok (bufCopy buffer pagePlain (pos + bwt - pageNo * PAGE_SIZE) (offset + bwt)
          (offset + bwt + min (L - bwt) (PAGE_SIZE - (pos + bwt - pageNo * PAGE_SIZE)))) ∧
      writeEncLoop encKey fileId ivs buffer offset pos L disk pageNo bwt (fuel + 1) =
        writeEncLoop encKey fileId ivs buffer offset pos L
          (writeAt disk (FILE_HEADER_SIZE + pageNo * ENCRYPTED_PAGE_SIZE) enc) (pageNo + 1)
          (bwt + min (L - bwt) (PAGE_SIZE - (pos + bwt - pageNo * PAGE_SIZE))) fuel := by
  have hE : ENCRYPTED_PAGE_SIZE = 8220 := rfl
  have hF : FILE_HEADER_SIZE = 48 := rfl
  have hP : PAGE_SIZE = 8192 := rfl
  have hmain : ∃ pagePlain,
      pagePlain.length = PAGE_SIZE ∧
      (pageNo < m → decryptPage (pageSlot disk pageNo) pageNo encKey fileId = .ok pagePlain) ∧
      (m ≤ pageNo → pagePlain = List.replicate PAGE_SIZE 0) ∧
      (if (if FILE_HEADER_SIZE + pageNo * ENCRYPTED_PAGE_SIZE < disk.length then
            readAt disk (FILE_HEADER_SIZE + pageNo * ENCRYPTED_PAGE_SIZE) ENCRYPTED_PAGE_SIZE
          else []).length = ENCRYPTED_PAGE_SIZE then
        match decryptPage (if FILE_HEADER_SIZE + pageNo * ENCRYPTED_PAGE_SIZE < disk.length then
            readAt disk (FILE_HEADER_SIZE + pageNo * ENCRYPTED_PAGE_SIZE) ENCRYPTED_PAGE_SIZE
          else []) pageNo encKey fileId with
        | .error _ => Except.error (ε := FsError)
            (.eio ("Decryption failed during write for page " ++ toString pageNo ++
              ", file may be corrupt"))
        | .ok pagePlain => .ok pagePlain
      else .ok (List.replicate PAGE_SIZE 0)) = .ok pagePlain := by
    by_cases hm : pageNo < m
    · obtain ⟨pt, hpt⟩ := hdec hm
      have hlt : FILE_HEADER_SIZE + pageNo * ENCRYPTED_PAGE_SIZE < disk.length := by
        rw [hwf, hE, hF]
        have : (pageNo + 1) * 8220 ≤ m * 8220 := Nat.mul_le_mul_right 8220 hm
        omega
      have hslot : (pageSlot disk pageNo).length = ENCRYPTED_PAGE_SIZE :=
        pageSlot_length_of_lt disk pageNo m hwf hm
      refine ⟨pt, decryptPage_ok_length _ _ _ _ _ hpt, fun _ => hpt, fun hc => absurd hm
        (by omega), ?_⟩
      rw [if_pos hlt]
      show (if (pageSlot disk pageNo).length = ENCRYPTED_PAGE_SIZE then _ else _) = _
      rw [if_pos hslot]
      show (match decryptPage (pageSlot disk pageNo) pageNo encKey fileId with
        | .error _ => _ | .ok pagePlain => Except.ok pagePlain) = _
      rw [hpt]
    · have hge : ¬FILE_HEADER_SIZE + pageNo * ENCRYPTED_PAGE_SIZE < disk.length := by
        rw [hwf, hE, hF]
        have : m * 8220 ≤ pageNo * 8220 := Nat.mul_le_mul_right 8220 (by omega)
        omega
      refine ⟨List.replicate PAGE_SIZE 0, by simp, fun hc => absurd hc hm, fun _ => rfl, ?_⟩
      rw [if_neg hge]
      show (if ([] : List Nat).length = ENCRYPTED_PAGE_SIZE then _ else _) = _
      rw [if_neg (by rw [hE]; simp)]
  obtain ⟨pagePlain, hpl, hplt, hpge, hrmw⟩ := hmain
  have hnp : (bufCopy buffer pagePlain (pos + bwt - pageNo * PAGE_SIZE) (offset + bwt)
      (offset + bwt + min (L - bwt) (PAGE_SIZE - (pos + bwt - pageNo * PAGE_SIZE)))).length =
      PAGE_SIZE := by
    rw [bufCopy_length _ _ _ _ _ (by rw [hpl]; exact hoff), hpl]
  obtain ⟨enc, henc, henclen, hdecenc⟩ :=
    encryptPage_roundtrip _ pageNo encKey fileId (ivs pageNo) hnp hrange hiv
  refine ⟨pagePlain, enc, hpl, hplt, hpge, henclen, hdecenc, ?_⟩
  conv_lhs => rw [writeEncLoop]
  simp only [hrmw, henc, List.take_of_length_le (le_of_eq henclen)]

theorem logicalByte_of_slot (disk encKey fileId : List Nat) (q pageNo : Nat)
    (enc pt : List Nat) (hq : q / PAGE_SIZE = pageNo) (hslot : pageSlot disk pageNo = enc)
    (hdec : decryptPage enc pageNo encKey fileId = .ok pt) :
    logicalByte disk encKey fileId q = pt[q % PAGE_SIZE]? := by
  unfold logicalByte
  rw [hq, hslot, hdec]

theorem bufCopy_window_getElem (buffer pagePlain : List Nat) (tS sS btw j : Nat)
    (hpl : pagePlain.length = PAGE_SIZE) (hfit : tS + btw ≤ PAGE_SIZE)
    (hsrc : sS + btw ≤ buffer.length) :
    (bufCopy buffer pagePlain tS sS (sS + btw))[j]? =
      if tS ≤ j ∧ j < tS + btw then buffer[sS + (j - tS)]? else pagePlain[j]? := by
  have h := getElem?_bufCopy buffer pagePlain tS sS (sS + btw) j
    (by rw [hpl]; omega) (by omega)
  rw [Nat.add_sub_cancel_left] at h
  exact h


/-- Full specification of the encrypted write loop on a well-formed disk:
the loop succeeds, keeps the disk well-formed, rewrites exactly the touched
page slots, installs the caller's bytes over the window
`[pos + bwt, pos + L)`, and preserves every logical byte of every existing
touched page outside the window. -/
theorem writeEncLoop_spec (encKey fileId : List Nat) (ivs : Nat → List Nat)
    (buffer : List Nat) (offset pos L endP : Nat)
    (hendP : endP = (pos + L - 1) / PAGE_SIZE)
    (hiv : ∀ j, (ivs j).length = IV_SIZE)
    (hrange : endP ≤ 0xffffffff)
    (hbuf : offset + L ≤ buffer.length) :
    ∀ (fuel : Nat) (disk : List Nat) (pageNo bwt m : Nat),
    disk.length = FILE_HEADER_SIZE + m * ENCRYPTED_PAGE_SIZE →
    pageNo ≤ endP →
    fuel = endP + 1 - pageNo →
    bwt < L →
    pageNo * PAGE_SIZE ≤ pos + bwt →
    pos + bwt < (pageNo + 1) * PAGE_SIZE →
    (∀ j, pageNo ≤ j → j ≤ endP → j < m →
      ∃ pt, decryptPage (pageSlot disk j) j encKey fileId = .ok pt) →
    ∃ disk',
      writeEncLoop encKey fileId ivs buffer offset pos L disk pageNo bwt fuel =
        .ok (disk', L) ∧
      disk'.length = FILE_HEADER_SIZE + (max m (endP + 1)) * ENCRYPTED_PAGE_SIZE ∧
      (∀ i, i < pageNo → i < m → pageSlot disk' i = pageSlot disk i) ∧
      (∀ i, endP < i → pageSlot disk' i = pageSlot disk i) ∧
      (∀ q, pos + bwt ≤ q → q < pos + L →
        logicalByte disk' encKey fileId q = buffer[offset + (q - pos)]?) ∧
      (∀ q, pageNo ≤ q / PAGE_SIZE → q / PAGE_SIZE ≤ endP → q / PAGE_SIZE < m →
        (q < pos + bwt ∨ pos + L ≤ q) →
        logicalByte disk' encKey fileId q = logicalByte disk encKey fileId q) := by
  intro fuel
  induction fuel with
  | zero =>
    intro disk pageNo bwt m hwf hpe hfuel hbwt hlo hhi hdec
    omega
  | succ n ih =>
    intro disk pageNo bwt m hwf hpe hfuel hbwt hlo hhi hdec
    have hoff : pos + bwt - pageNo * PAGE_SIZE ≤ PAGE_SIZE := by
      show pos + bwt - pageNo * 8192 ≤ 8192
      have hhi8 : pos + bwt < (pageNo + 1) * 8192 := hhi
      omega
    obtain ⟨pagePlain, enc, hpl, hplt, hpge, henclen, hdecenc, hstep⟩ :=
      writeEncLoop_step encKey fileId ivs buffer offset pos L disk pageNo bwt n m hwf
        (hiv pageNo) (by omega) hoff (fun hm => hdec pageNo le_rfl hpe hm)
    simp only [show PAGE_SIZE = 8192 from rfl, show ENCRYPTED_PAGE_SIZE = 8220 from rfl,
      show FILE_HEADER_SIZE = 48 from rfl] at hwf hlo hhi hendP hpl henclen hdecenc hstep ⊢
    obtain ⟨po, hpo⟩ : ∃ po, pos + bwt - pageNo * 8192 = po := ⟨_, rfl⟩
    rw [hpo] at hdecenc hstep
    obtain ⟨btw, hbtw⟩ : ∃ b, min (L - bwt) (8192 - po) = b := ⟨_, rfl⟩
    rw [hbtw] at hdecenc hstep
    obtain ⟨disk1, hdisk1⟩ : ∃ d, writeAt disk (48 + pageNo * 8220) enc = d := ⟨_, rfl⟩
    rw [hdisk1] at hstep
    have hwf1 : disk1.length = 48 + (max m (pageNo + 1)) * 8220 := by
      rw [← hdisk1, writeAt_length, hwf, henclen]
      omega
    have hslot_self : pageSlot disk1 pageNo = enc := by
      rw [← hdisk1]
      exact pageSlot_writeAt_self disk pageNo enc henclen
    have hslot_lt : ∀ i, i < pageNo → i < m → pageSlot disk1 i = pageSlot disk i := by
      intro i hip him
      rw [← hdisk1]
      apply pageSlot_writeAt_lt disk i pageNo enc hip
      calc FILE_HEADER_SIZE + (i + 1) * ENCRYPTED_PAGE_SIZE = 48 + (i + 1) * 8220 := rfl
        _ ≤ 48 + m * 8220 := by
            have : (i + 1) * 8220 ≤ m * 8220 := Nat.mul_le_mul_right 8220 him
            omega
        _ = disk.length := hwf.symm
    have hslot_gt : ∀ i, pageNo < i → pageSlot disk1 i = pageSlot disk i := by
      intro i hip
      rw [← hdisk1]
      exact pageSlot_writeAt_gt disk i pageNo enc hip henclen
    have hbtw_pos : 1 ≤ btw := by omega
    have hbtw_le : bwt + btw ≤ L := by omega
    have hfit : po + btw ≤ PAGE_SIZE := by
      show po + btw ≤ 8192
      omega
    have hsrc : offset + bwt + btw ≤ buffer.length := by omega
    have hwindow : ∀ q, pos + bwt ≤ q → q < pos + bwt + btw →
        logicalByte disk1 encKey fileId q = buffer[offset + (q - pos)]? := by
      intro q hq1 hq2
      have hqpage : q / PAGE_SIZE = pageNo := by
        show q / 8192 = pageNo
        omega
      rw [logicalByte_of_slot disk1 encKey fileId q pageNo enc _ hqpage hslot_self hdecenc]
      rw [bufCopy_window_getElem buffer pagePlain po (offset + bwt) btw (q % PAGE_SIZE) hpl
        hfit hsrc]
      have hqmod : q % PAGE_SIZE = q - pageNo * 8192 := by
        show q % 8192 = q - pageNo * 8192
        omega
      rw [hqmod, if_pos ⟨by omega, by omega⟩]
      congr 1
      omega
    have hframe_cur : ∀ q, q / PAGE_SIZE = pageNo → pageNo < m →
        (q < pos + bwt ∨ pos + bwt + btw ≤ q) →
        logicalByte disk1 encKey fileId q = logicalByte disk encKey fileId q := by
      intro q hqpage hm hout
      have hq8 : q / 8192 = pageNo := hqpage
      rw [logicalByte_of_slot disk1 encKey fileId q pageNo enc _ hqpage hslot_self hdecenc]
      rw [logicalByte_of_slot disk encKey fileId q pageNo (pageSlot disk pageNo) pagePlain
        hqpage rfl (hplt hm)]
      rw [bufCopy_window_getElem buffer pagePlain po (offset + bwt) btw (q % PAGE_SIZE) hpl
        hfit hsrc]
      have hqmod : q % PAGE_SIZE = q - pageNo * 8192 := by
        show q % 8192 = q - pageNo * 8192
        omega
      rw [hqmod, if_neg (by omega)]
    by_cases hlast : pageNo = endP
    · have hn : n = 0 := by omega
      have hbl : bwt + btw = L := by omega
      refine ⟨disk1, ?_, ?_, ?_, ?_, ?_, ?_⟩
      · rw [hstep, hn]
        show Except.ok (disk1, bwt + btw) = Except.ok (disk1, L)
        rw [hbl]
      · rw [hwf1]
        omega
      · intro i hip him
        exact hslot_lt i hip him
      · intro i hie
        exact hslot_gt i (by omega)
      · intro q hq1 hq2
        exact hwindow q hq1 (by omega)
      · intro q hq1 hq2 hq3 hout
        have hqpage : q / PAGE_SIZE = pageNo := by
          show q / 8192 = pageNo
          omega
        refine hframe_cur q hqpage (by omega) ?_
        rcases hout with h | h
        · exact Or.inl h
        · exact Or.inr (by omega)
    · have hfull : pos + bwt + btw = (pageNo + 1) * 8192 := by omega
      have hbwt1 : bwt + btw < L := by omega
      have hdec1 : ∀ j, pageNo + 1 ≤ j → j ≤ endP → j < max m (pageNo + 1) →
          ∃ pt, decryptPage (pageSlot disk1 j) j encKey fileId = .ok pt := by
        intro j hj1 hj2 hjm
        rw [hslot_gt j (by omega)]
        exact hdec j (by omega) hj2 (by omega)
      obtain ⟨disk', hloop', hlen', hfr_lt', hfr_gt', hwin', hfr'⟩ :=
        ih disk1 (pageNo + 1) (bwt + btw) (max m (pageNo + 1)) hwf1 (by omega) (by omega)
          hbwt1 (by show (pageNo + 1) * 8192 ≤ pos + (bwt + btw); omega)
          (by show pos + (bwt + btw) < (pageNo + 1 + 1) * 8192; omega) hdec1
      refine ⟨disk', ?_, ?_, ?_, ?_, ?_, ?_⟩
      · rw [hstep]
        exact hloop'
      · rw [hlen']
        show 48 + (max (max m (pageNo + 1)) (endP + 1)) * 8220 = _
        omega
      · intro i hip him
        rw [hfr_lt' i (by omega) (by omega)]
        exact hslot_lt i hip him
      · intro i hie
        rw [hfr_gt' i hie]
        exact hslot_gt i (by omega)
      · intro q hq1 hq2
        by_cases hqc : q < pos + bwt + btw
        · have hqpage : q / PAGE_SIZE = pageNo := by
            show q / 8192 = pageNo
            omega
          have hslot' : pageSlot disk' pageNo = enc := by
            rw [hfr_lt' pageNo (by omega) (by omega)]
            exact hslot_self
          rw [logicalByte_of_slot disk' encKey fileId q pageNo enc _ hqpage hslot' hdecenc]
          rw [bufCopy_window_getElem buffer pagePlain po (offset + bwt) btw (q % PAGE_SIZE)
            hpl hfit hsrc]
          have hqmod : q % PAGE_SIZE = q - pageNo * 8192 := by
            show q % 8192 = q - pageNo * 8192
            omega
          rw [hqmod, if_pos ⟨by omega, by omega⟩]
          congr 1
          omega
        · exact hwin' q (by omega) hq2
      · intro q hq1 hq2 hq3 hout
        by_cases hqp : q / 8192 = pageNo
        · have hout1 : q < pos + bwt ∨ pos + bwt + btw ≤ q := by
            rcases hout with h | h
            · exact Or.inl h
            · exact Or.inr (by omega)
          have hqpage : q / PAGE_SIZE = pageNo := hqp
          have hslot' : pageSlot disk' pageNo = enc := by
            rw [hfr_lt' pageNo (by omega) (by omega)]
            exact hslot_self
          rw [logicalByte_of_slot disk' encKey fileId q pageNo enc _ hqpage hslot' hdecenc]
          rw [logicalByte_of_slot disk encKey fileId q pageNo (pageSlot disk pageNo) pagePlain
            hqpage rfl (hplt (by omega))]
          rw [bufCopy_window_getElem buffer pagePlain po (offset + bwt) btw (q % PAGE_SIZE)
            hpl hfit hsrc]
          have hqmod : q % PAGE_SIZE = q - pageNo * 8192 := by
            show q % 8192 = q - pageNo * 8192
            omega
          rw [hqmod, if_neg (by omega)]
        · have hq1' : pageNo + 1 ≤ q / PAGE_SIZE := by
            show pageNo + 1 ≤ q / 8192
            omega
          have hq3' : q / PAGE_SIZE < max m (pageNo + 1) := by
            show q / 8192 < max m (pageNo + 1)
            omega
          have hout' : q < pos + (bwt + btw) ∨ pos + L ≤ q := by
            rcases hout with h | h
            · exact Or.inl (by
                have hq8 : pageNo ≤ q / 8192 := hq1
                have hhil : pos + bwt < (pageNo + 1) * 8192 := hhi
                omega)
            · exact Or.inr h
          rw [hfr' q hq1' hq2 hq3' hout']
          exact logicalByte_congr disk disk1 encKey fileId q (hslot_gt (q / PAGE_SIZE)
            (by show pageNo < q / 8192; omega))

/-- Reduction of `write` to its encrypted-path loop for a live encrypted
file handle with an explicit non-negative position. -/
theorem fsWrite_encrypted (s : CoreState) (f : OpenFile) (disk buffer : List Nat)
    (ivs : Nat → List Nat) (offset L p : Nat)
    (hdest : s.destroyed = false) (henc : f.encrypted = true) (hfd : f.realFd ≠ -1)
    (hL : L ≠ 0) :
    fsWrite s (some f) disk ivs buffer offset L (some (Int.ofNat p)) =
      match writeEncLoop s.encKey f.fileId ivs buffer offset p L disk (p / PAGE_SIZE) 0
          ((p + L - 1) / PAGE_SIZE + 1 - p / PAGE_SIZE) with
      | .error e => .error e
      | .ok (disk', bwt) => .ok (disk', bwt, { f with position := p + bwt }) := by
  unfold fsWrite
  simp only [hdest, henc, hL, Bool.false_eq_true, if_false, Bool.not_true, if_neg hfd,
    ite_false, Int.toNat_ofNat]
  rfl

/-- C2: a write of length `L` at position `p` that covers only part of a page
(on a live encrypted handle over a well-formed, decryptable file) succeeds,
leaves every logical byte outside `[p, p + L)` with the value it had before
the write, and makes the bytes inside the window equal the caller's input. -/
theorem C2_partial_write_frame (s : CoreState) (f : OpenFile) (disk buffer : List Nat)
    (ivs : Nat → List Nat) (offset p L k : Nat)
    (hdest : s.destroyed = false) (henc : f.encrypted = true) (hfd : f.realFd ≠ -1)
    (hL : 1 ≤ L)
    (hpart : ¬(p % PAGE_SIZE = 0 ∧ L % PAGE_SIZE = 0))
    (hwf : disk.length = FILE_HEADER_SIZE + k * ENCRYPTED_PAGE_SIZE)
    (hdec : ∀ j, j < k → ∃ pt, decryptPage (pageSlot disk j) j s.encKey f.fileId = .ok pt)
    (hiv : ∀ j, (ivs j).length = IV_SIZE)
    (hrange : (p + L - 1) / PAGE_SIZE ≤ 0xffffffff)
    (hbuf : offset + L ≤ buffer.length) :
    ∃ disk',
      fsWrite s (some f) disk ivs buffer offset L (some (Int.ofNat p)) =
        .ok (disk', L, { f with position := p + L }) ∧
      (∀ q, q < k * PAGE_SIZE → (q < p ∨ p + L ≤ q) →
        logicalByte disk' s.encKey f.fileId q = logicalByte disk s.encKey f.fileId q) ∧
      (∀ q, p ≤ q → q < p + L →
        logicalByte disk' s.encKey f.fileId q = buffer[offset + (q - p)]?) := by
  obtain ⟨disk', hloop, hlen, hfrlt, hfrgt, hwin, hfr⟩ :=
    writeEncLoop_spec s.encKey f.fileId ivs buffer offset p L ((p + L - 1) / PAGE_SIZE) rfl hiv
      hrange hbuf ((p + L - 1) / PAGE_SIZE + 1 - p / PAGE_SIZE) disk (p / PAGE_SIZE) 0 k hwf
      (Nat.div_le_div_right (by omega)) rfl hL
      (by show p / 8192 * 8192 ≤ p + 0; omega)
      (by show p + 0 < (p / 8192 + 1) * 8192; omega)
      (fun j _ _ hjk => hdec j hjk)
  refine ⟨disk', ?_, ?_, ?_⟩
  · rw [fsWrite_encrypted s f disk buffer ivs offset L p hdest henc hfd (by omega), hloop]
  · intro q hq hout
    have hqk : q / PAGE_SIZE < k := by
      show q / 8192 < k
      have : q < k * 8192 := hq
      omega
    by_cases hqlt : q / PAGE_SIZE < p / PAGE_SIZE
    · exact logicalByte_congr _ _ _ _ q (hfrlt (q / PAGE_SIZE) hqlt hqk)
    · by_cases hqgt : (p + L - 1) / PAGE_SIZE < q / PAGE_SIZE
      · exact logicalByte_congr _ _ _ _ q (hfrgt (q / PAGE_SIZE) hqgt)
      · refine hfr q (by omega) (by omega) hqk ?_
        rcases hout with h | h
        · exact Or.inl (by omega)
        · exact Or.inr h
  · intro q hq1 hq2
    exact hwin q (by omega) hq2

/-- Witness for C2: the first byte of an empty (header-only) encrypted file
is written with the value 66; the write succeeds and puts 66 at position 0. -/
theorem C2_partial_write_frame_witness :
    ((⟨false, [1], [2]⟩ : CoreState).destroyed = false ∧
      (⟨5, "base/1/16384", "r+", 0, true, [7]⟩ : OpenFile).encrypted = true ∧
      (⟨5, "base/1/16384", "r+", 0, true, [7]⟩ : OpenFile).realFd ≠ -1 ∧
      1 ≤ 1 ∧ ¬((0 : Nat) % PAGE_SIZE = 0 ∧ (1 : Nat) % PAGE_SIZE = 0) ∧
      (List.replicate 48 (0 : Nat)).length = FILE_HEADER_SIZE + 0 * ENCRYPTED_PAGE_SIZE ∧
      ((0 : Nat) + 1 - 1) / PAGE_SIZE ≤ 0xffffffff ∧ (0 : Nat) + 1 ≤ [(66 : Nat)].length) ∧
    ∃ disk',
      fsWrite ⟨false, [1], [2]⟩ (some ⟨5, "base/1/16384", "r+", 0, true, [7]⟩)
          (List.replicate 48 0) (fun _ => List.replicate 12 1) [66] 0 1
          (some (Int.ofNat 0)) =
        .ok (disk', 1, { (⟨5, "base/1/16384", "r+", 0, true, [7]⟩ : OpenFile) with
          position := 0 + 1 }) ∧
      (∀ q, q < 0 * PAGE_SIZE → (q < 0 ∨ 0 + 1 ≤ q) →
        logicalByte disk' [1] [7] q = logicalByte (List.replicate 48 0) [1] [7] q) ∧
      (∀ q, 0 ≤ q → q < 0 + 1 →
        logicalByte disk' [1] [7] q = [(66 : Nat)][0 + (q - 0)]?) :=
  ⟨⟨rfl, rfl, by decide, by decide, by decide, by decide, by decide, by decide⟩,
    C2_partial_write_frame ⟨false, [1], [2]⟩ ⟨5, "base/1/16384", "r+", 0, true, [7]⟩
      (List.replicate 48 0) [66] (fun _ => List.replicate 12 1) 0 0 1 0
      rfl rfl (by decide) (by decide) (by decide) (by decide)
      (fun j hj => absurd hj (Nat.not_lt_zero j)) (fun _ => rfl) (by decide) (by decide)⟩

/-- Reduction of `read` to its encrypted-path loop for a live encrypted file
handle with an explicit non-negative position. -/
theorem fsRead_encrypted (s : CoreState) (f : OpenFile) (disk buffer : List Nat)
    (offset L p : Nat)
    (hdest : s.destroyed = false) (henc : f.encrypted = true) (hfd : f.realFd ≠ -1)
    (hL : L ≠ 0) :
    fsRead s (some f) disk buffer offset L (some (Int.ofNat p)) =
      match readEncLoop disk s.encKey f.fileId offset p L (p / PAGE_SIZE) 0 buffer
          ((p + L - 1) / PAGE_SIZE + 1 - p / PAGE_SIZE) with
      | .error e => .error e
      | .ok (buffer', brt) => .ok (buffer', brt, { f with position := p + brt }) := by
  unfold fsRead
  simp only [hdest, henc, hL, Bool.false_eq_true, if_false, Bool.not_true, if_neg hfd,
    ite_false, Int.toNat_ofNat]
  rfl

/-- On the read path a non-zero partial page read is fatal: the loop fails
with `EIO` as soon as the page region holds more than 0 but fewer than
`ENCRYPTED_PAGE_SIZE` bytes. -/
theorem readEncLoop_partial_fatal (disk encKey fileId : List Nat)
    (offset pos L pageNo brt fuel : Nat) (buffer : List Nat)
    (hp1 : FILE_HEADER_SIZE + pageNo * ENCRYPTED_PAGE_SIZE < disk.length)
    (hp2 : disk.length < FILE_HEADER_SIZE + pageNo * ENCRYPTED_PAGE_SIZE + ENCRYPTED_PAGE_SIZE) :
    readEncLoop disk encKey fileId offset pos L pageNo brt buffer (fuel + 1) =
      .error (.eio ("Short encrypted page read (expected " ++ toString ENCRYPTED_PAGE_SIZE ++
        ", got " ++ toString (disk.length - (FILE_HEADER_SIZE + pageNo * ENCRYPTED_PAGE_SIZE)) ++
        ") at page " ++ toString pageNo)) := by
  have hlen : (readAt disk (FILE_HEADER_SIZE + pageNo * ENCRYPTED_PAGE_SIZE)
      ENCRYPTED_PAGE_SIZE).length =
      disk.length - (FILE_HEADER_SIZE + pageNo * ENCRYPTED_PAGE_SIZE) := by
    rw [readAt_length]
    have h1 : 48 + pageNo * 8220 < disk.length := hp1
    have h2 : disk.length < 48 + pageNo * 8220 + 8220 := hp2
    show min 8220 (disk.length - (48 + pageNo * 8220)) = disk.length - (48 + pageNo * 8220)
    omega
  conv_lhs => rw [readEncLoop]
  rw [hlen]
  rw [if_neg (by
    have h1 : 48 + pageNo * 8220 < disk.length := hp1
    show ¬disk.length - (48 + pageNo * 8220) = 0
    omega)]
  rw [if_pos (by
    have h2 : disk.length < 48 + pageNo * 8220 + 8220 := hp2
    show disk.length - (48 + pageNo * 8220) < 8220
    omega)]

/-- On the read path a zero-byte page read (EOF) stops the loop without an
error, returning the bytes copied so far. -/
theorem readEncLoop_eof_stops (disk encKey fileId : List Nat)
    (offset pos L pageNo brt fuel : Nat) (buffer : List Nat)
    (hp : disk.length ≤ FILE_HEADER_SIZE + pageNo * ENCRYPTED_PAGE_SIZE) :
    readEncLoop disk encKey fileId offset pos L pageNo brt buffer (fuel + 1) =
      .ok (buffer, brt) := by
  conv_lhs => rw [readEncLoop]
  rw [readAt_eq_nil disk _ _ hp]
  simp

/-- On the write path a partial page read is NOT fatal: for a single-page
write over a partially present page, the read-modify-write step silently
starts from an all-zero plaintext and the write succeeds. -/
theorem writeEncLoop_partial_page_proceeds (encKey fileId : List Nat) (ivs : Nat → List Nat)
    (buffer : List Nat) (offset pos L : Nat) (disk : List Nat)
    (hL : 1 ≤ L)
    (hsingle : pos / PAGE_SIZE = (pos + L - 1) / PAGE_SIZE)
    (hp1 : FILE_HEADER_SIZE + (pos / PAGE_SIZE) * ENCRYPTED_PAGE_SIZE < disk.length)
    (hp2 : disk.length <
      FILE_HEADER_SIZE + (pos / PAGE_SIZE) * ENCRYPTED_PAGE_SIZE + ENCRYPTED_PAGE_SIZE)
    (hiv : (ivs (pos / PAGE_SIZE)).length = IV_SIZE)
    (hrange : pos / PAGE_SIZE ≤ 0xffffffff) :
    ∃ disk', writeEncLoop encKey fileId ivs buffer offset pos L disk (pos / PAGE_SIZE) 0 1 =
      .ok (disk', L) := by
  have hlen : (readAt disk (FILE_HEADER_SIZE + (pos / PAGE_SIZE) * ENCRYPTED_PAGE_SIZE)
      ENCRYPTED_PAGE_SIZE).length ≠ ENCRYPTED_PAGE_SIZE := by
    rw [readAt_length]
    have h1 : 48 + pos / 8192 * 8220 < disk.length := hp1
    have h2 : disk.length < 48 + pos / 8192 * 8220 + 8220 := hp2
    show min 8220 (disk.length - (48 + pos / 8192 * 8220)) ≠ 8220
    omega
  have hnp : (bufCopy buffer (List.replicate PAGE_SIZE 0)
      (pos + 0 - pos / PAGE_SIZE * PAGE_SIZE) (offset + 0)
      (offset + 0 + min (L - 0) (PAGE_SIZE - (pos + 0 - pos / PAGE_SIZE * PAGE_SIZE)))).length =
      PAGE_SIZE := by
    rw [bufCopy_length _ _ _ _ _ (by
      rw [List.length_replicate]
      show pos + 0 - pos / 8192 * 8192 ≤ 8192
      omega)]
    exact List.length_replicate _ _
  obtain ⟨enc, henc, henclen, hdecenc⟩ :=
    encryptPage_roundtrip _ (pos / PAGE_SIZE) encKey fileId (ivs (pos / PAGE_SIZE)) hnp
      hrange hiv
  refine ⟨writeAt disk (FILE_HEADER_SIZE + (pos / PAGE_SIZE) * ENCRYPTED_PAGE_SIZE)
    (enc.take ENCRYPTED_PAGE_SIZE), ?_⟩
  conv_lhs => rw [writeEncLoop]
  rw [if_pos hp1, if_neg hlen]
  simp only [henc]
  show Except.ok (_, 0 + min (L - 0) (PAGE_SIZE - (pos + 0 - pos / PAGE_SIZE * PAGE_SIZE))) = _
  have hbtw : 0 + min (L - 0) (PAGE_SIZE - (pos + 0 - pos / PAGE_SIZE * PAGE_SIZE)) = L := by
    show 0 + min (L - 0) (8192 - (pos + 0 - pos / 8192 * 8192)) = L
    have hs : pos / 8192 = (pos + L - 1) / 8192 := hsingle
    omega
  rw [hbtw]

/-- C7 counterexample: a file whose single page region holds only 100 bytes
(physical size 148, between the header and a full encrypted page).  A write
does not fail with `IOError` on the non-zero partial page read: it succeeds. -/
theorem C7_counterexample :
    FILE_HEADER_SIZE + 0 / PAGE_SIZE * ENCRYPTED_PAGE_SIZE <
      (List.replicate 148 (0 : Nat)).length ∧
    (List.replicate 148 (0 : Nat)).length <
      FILE_HEADER_SIZE + 0 / PAGE_SIZE * ENCRYPTED_PAGE_SIZE + ENCRYPTED_PAGE_SIZE ∧
    ∃ out, fsWrite ⟨false, [3], [4]⟩ (some ⟨5, "base/1/16384", "r+", 0, true, [7]⟩)
        (List.replicate 148 0) (fun _ => List.replicate 12 1) [66] 0 1 (some (Int.ofNat 0)) =
      .ok out := by
  refine ⟨by decide, by decide, ?_⟩
  rw [fsWrite_encrypted _ _ _ _ _ _ _ _ rfl rfl (by decide) (by decide)]
  have hf1 : (0 + 1 - 1) / PAGE_SIZE + 1 - 0 / PAGE_SIZE = 1 := by decide
  rw [hf1]
  obtain ⟨disk', hd⟩ := writeEncLoop_partial_page_proceeds [3] [7]
    (fun _ => List.replicate 12 1) [66] 0 0 1 (List.replicate 148 0) (by decide) (by decide)
    (by decide) (by decide) rfl (by decide)
  rw [hd]
  exact ⟨_, rfl⟩

/-- C7 (amended): on the read path any non-zero partial read of an encrypted
page is fatal (`EIO`), and a zero-byte read at EOF stops the loop returning
the bytes copied so far; but on the write path a non-zero partial page read
is not fatal — the page is treated as uninstantiated (all-zero plaintext)
and the write proceeds and succeeds. -/
theorem C7_short_read_fatal_on_read_lenient_on_write
    (s : CoreState) (f : OpenFile) (disk buffer : List Nat) (ivs : Nat → List Nat)
    (offset p L : Nat)
    (hdest : s.destroyed = false) (henc : f.encrypted = true) (hfd : f.realFd ≠ -1)
    (hL : 1 ≤ L) (hiv : (ivs (p / PAGE_SIZE)).length = IV_SIZE)
    (hrange : p / PAGE_SIZE ≤ 0xffffffff) :
    (FILE_HEADER_SIZE + p / PAGE_SIZE * ENCRYPTED_PAGE_SIZE < disk.length →
      disk.length < FILE_HEADER_SIZE + p / PAGE_SIZE * ENCRYPTED_PAGE_SIZE +
        ENCRYPTED_PAGE_SIZE →
      ∃ msg, fsRead s (some f) disk buffer offset L (some (Int.ofNat p)) =
        .error (.eio msg)) ∧
    (disk.length ≤ FILE_HEADER_SIZE + p / PAGE_SIZE * ENCRYPTED_PAGE_SIZE →
      fsRead s (some f) disk buffer offset L (some (Int.ofNat p)) =
        .ok (buffer, 0, { f with position := p + 0 })) ∧
    (p / PAGE_SIZE = (p + L - 1) / PAGE_SIZE →
      FILE_HEADER_SIZE + p / PAGE_SIZE * ENCRYPTED_PAGE_SIZE < disk.length →
      disk.length < FILE_HEADER_SIZE + p / PAGE_SIZE * ENCRYPTED_PAGE_SIZE +
        ENCRYPTED_PAGE_SIZE →
      ∃ disk', fsWrite s (some f) disk ivs buffer offset L (some (Int.ofNat p)) =
        .ok (disk', L, { f with position := p + L })) := by
  have hfe : (p + L - 1) / PAGE_SIZE + 1 - p / PAGE_SIZE =
      ((p + L - 1) / PAGE_SIZE - p / PAGE_SIZE) + 1 := by
    have hdl : p / 8192 ≤ (p + L - 1) / 8192 := Nat.div_le_div_right (by omega)
    show (p + L - 1) / 8192 + 1 - p / 8192 = (p + L - 1) / 8192 - p / 8192 + 1
    omega
  refine ⟨?_, ?_, ?_⟩
  · intro hp1 hp2
    rw [fsRead_encrypted s f disk buffer offset L p hdest henc hfd (by omega), hfe]
    rw [readEncLoop_partial_fatal disk s.encKey f.fileId offset p L (p / PAGE_SIZE) 0 _
      buffer hp1 hp2]
    exact ⟨_, rfl⟩
  · intro hp
    rw [fsRead_encrypted s f disk buffer offset L p hdest henc hfd (by omega), hfe]
    rw [readEncLoop_eof_stops disk s.encKey f.fileId offset p L (p / PAGE_SIZE) 0 _ buffer hp]
  · intro hs hp1 hp2
    rw [fsWrite_encrypted s f disk buffer ivs offset L p hdest henc hfd (by omega)]
    have hf1 : (p + L - 1) / PAGE_SIZE + 1 - p / PAGE_SIZE = 1 := by
      have hs8 : p / 8192 = (p + L - 1) / 8192 := hs
      show (p + L - 1) / 8192 + 1 - p / 8192 = 1
      omega
    rw [hf1]
    obtain ⟨disk', hd⟩ := writeEncLoop_partial_page_proceeds s.encKey f.fileId ivs buffer
      offset p L disk hL hs hp1 hp2 hiv hrange
    refine ⟨disk', ?_⟩
    rw [hd]

/-- Witness for C7 at the 148-byte partial file: the read fails with `EIO`. -/
theorem C7_short_read_fatal_on_read_lenient_on_write_witness :
    ((⟨false, [3], [4]⟩ : CoreState).destroyed = false ∧
      (⟨5, "base/1/16384", "r+", 0, true, [7]⟩ : OpenFile).encrypted = true ∧
      (⟨5, "base/1/16384", "r+", 0, true, [7]⟩ : OpenFile).realFd ≠ -1 ∧
      (1 : Nat) ≤ 1 ∧ (0 : Nat) / PAGE_SIZE ≤ 0xffffffff ∧
      FILE_HEADER_SIZE + 0 / PAGE_SIZE * ENCRYPTED_PAGE_SIZE <
        (List.replicate 148 (0 : Nat)).length ∧
      (List.replicate 148 (0 : Nat)).length <
        FILE_HEADER_SIZE + 0 / PAGE_SIZE * ENCRYPTED_PAGE_SIZE + ENCRYPTED_PAGE_SIZE) ∧
    ∃ msg, fsRead ⟨false, [3], [4]⟩ (some ⟨5, "base/1/16384", "r+", 0, true, [7]⟩)
        (List.replicate 148 0) [0] 0 1 (some (Int.ofNat 0)) = .error (.eio msg) :=
  ⟨⟨rfl, rfl, by decide, by decide, by decide, by decide, by decide⟩,
    (C7_short_read_fatal_on_read_lenient_on_write ⟨false, [3], [4]⟩
      ⟨5, "base/1/16384", "r+", 0, true, [7]⟩ (List.replicate 148 0) [0]
      (fun _ => List.replicate 12 1) 0 0 1 rfl rfl (by decide) (by decide) rfl
      (by decide)).1 (by decide) (by decide)⟩

/-- The truncate-extend loop appends exactly `fuel` freshly encrypted all-zero
pages at the end of a well-formed file, preserving every existing page slot. -/
theorem truncExtendLoop_spec (encKey fileId : List Nat) (ivs : Nat → List Nat)
    (hiv : ∀ j, (ivs j).length = IV_SIZE) :
    ∀ (fuel : Nat) (disk : List Nat) (pageNo : Nat),
    disk.length = FILE_HEADER_SIZE + pageNo * ENCRYPTED_PAGE_SIZE →
    pageNo + fuel ≤ 0x100000000 →
    ∃ disk', truncExtendLoop encKey fileId ivs disk pageNo fuel = .ok disk' ∧
      disk'.length = FILE_HEADER_SIZE + (pageNo + fuel) * ENCRYPTED_PAGE_SIZE ∧
      (∀ i, i < pageNo → pageSlot disk' i = pageSlot disk i) ∧
      (∀ j, pageNo ≤ j → j < pageNo + fuel →
        decryptPage (pageSlot disk' j) j encKey fileId = .ok (List.replicate PAGE_SIZE 0)) := by
  intro fuel
  induction fuel with
  | zero =>
    intro disk pageNo hwf hrange
    refine ⟨disk, rfl, by rw [hwf, Nat.add_zero], fun i _ => rfl,
      fun j hj1 hj2 => absurd hj2 (by omega)⟩
  | succ n ih =>
    intro disk pageNo hwf hrange
    obtain ⟨enc, henc, henclen, hdecenc⟩ :=
      encryptPage_roundtrip (List.replicate PAGE_SIZE 0) pageNo encKey fileId (ivs pageNo)
        (by simp) (by omega) (hiv pageNo)
    have htake : enc.take enc.length = enc := List.take_length enc
    have hwf1 : (writeAt disk (FILE_HEADER_SIZE + pageNo * ENCRYPTED_PAGE_SIZE) enc).length =
        FILE_HEADER_SIZE + (pageNo + 1) * ENCRYPTED_PAGE_SIZE := by
      rw [writeAt_length, hwf, henclen]
      show max (48 + pageNo * 8220) (48 + pageNo * 8220 + 8220) = 48 + (pageNo + 1) * 8220
      omega
    obtain ⟨disk', hloop', hlen', hfr', hzero'⟩ :=
      ih (writeAt disk (FILE_HEADER_SIZE + pageNo * ENCRYPTED_PAGE_SIZE) enc) (pageNo + 1)
        hwf1 (by omega)
    refine ⟨disk', ?_, ?_, ?_, ?_⟩
    · conv_lhs => rw [truncExtendLoop]
      rw [henc]
      simp only [htake]
      exact hloop'
    · rw [hlen']
      show 48 + (pageNo + 1 + n) * 8220 = 48 + (pageNo + (n + 1)) * 8220
      omega
    · intro i hip
      rw [hfr' i (by omega)]
      apply pageSlot_writeAt_lt disk i pageNo enc hip
      calc FILE_HEADER_SIZE + (i + 1) * ENCRYPTED_PAGE_SIZE = 48 + (i + 1) * 8220 := rfl
        _ ≤ 48 + pageNo * 8220 := by
            have : (i + 1) * 8220 ≤ pageNo * 8220 := Nat.mul_le_mul_right 8220 hip
            omega
        _ = disk.length := hwf.symm
    · intro j hj1 hj2
      by_cases hj : j = pageNo
      · subst hj
        rw [hfr' j (by omega), pageSlot_writeAt_self disk j enc henclen]
        exact hdecenc
      · exact hzero' j (by omega) (by omega)

/-- C3: `truncate` on a well-formed encrypted file of `k` pages succeeds and
leaves the physical size exactly
`FILE_HEADER_SIZE + ceil(len / PAGE_SIZE) * ENCRYPTED_PAGE_SIZE` (so invariant
I1 holds), and every newly added page is an encrypted all-zero plaintext page
under the file ID read from the header. -/
theorem C3_truncate_exact_size_and_zero_extend (encKey : List Nat) (ivs : Nat → List Nat)
    (disk : List Nat) (len k : Nat)
    (hwf : disk.length = FILE_HEADER_SIZE + k * ENCRYPTED_PAGE_SIZE)
    (hiv : ∀ j, (ivs j).length = IV_SIZE)
    (hrange : (len + PAGE_SIZE - 1) / PAGE_SIZE ≤ 0x100000000) :
    ∃ disk', fsTruncate encKey ivs disk len = .ok disk' ∧
      disk'.length =
        FILE_HEADER_SIZE + ((len + PAGE_SIZE - 1) / PAGE_SIZE) * ENCRYPTED_PAGE_SIZE ∧
      (∀ j, k ≤ j → j < (len + PAGE_SIZE - 1) / PAGE_SIZE →
        decryptPage (pageSlot disk' j) j encKey (readAt disk SALT_SIZE FILE_ID_SIZE) =
          .ok (List.replicate PAGE_SIZE 0)) := by
  have hcur : (if disk.length > FILE_HEADER_SIZE then
      (disk.length - FILE_HEADER_SIZE) / ENCRYPTED_PAGE_SIZE else 0) = k := by
    rw [hwf]
    show (if 48 + k * 8220 > 48 then (48 + k * 8220 - 48) / 8220 else 0) = k
    by_cases hk : k = 0
    · subst hk
      simp
    · rw [if_pos (by omega)]
      omega
  have hbody : fsTruncate encKey ivs disk len =
      (if (len + PAGE_SIZE - 1) / PAGE_SIZE >
          (if disk.length > FILE_HEADER_SIZE then
            (disk.length - FILE_HEADER_SIZE) / ENCRYPTED_PAGE_SIZE else 0) then
        (if (readAt disk SALT_SIZE FILE_ID_SIZE).length ≠ FILE_ID_SIZE then
          .error (.eio "Could not read file ID from header")
        else
          truncExtendLoop encKey (readAt disk SALT_SIZE FILE_ID_SIZE) ivs disk
            (if disk.length > FILE_HEADER_SIZE then
              (disk.length - FILE_HEADER_SIZE) / ENCRYPTED_PAGE_SIZE else 0)
            ((len + PAGE_SIZE - 1) / PAGE_SIZE -
              (if disk.length > FILE_HEADER_SIZE then
                (disk.length - FILE_HEADER_SIZE) / ENCRYPTED_PAGE_SIZE else 0)))
      else
        (if FILE_HEADER_SIZE + ((len + PAGE_SIZE - 1) / PAGE_SIZE) * ENCRYPTED_PAGE_SIZE ≤
            disk.length then
          .ok (disk.take
            (FILE_HEADER_SIZE + ((len + PAGE_SIZE - 1) / PAGE_SIZE) * ENCRYPTED_PAGE_SIZE))
        else
          .ok (disk ++ List.replicate
            (FILE_HEADER_SIZE + ((len + PAGE_SIZE - 1) / PAGE_SIZE) * ENCRYPTED_PAGE_SIZE -
              disk.length) 0))) := rfl
  rw [hbody, hcur]
  by_cases hgrow : (len + PAGE_SIZE - 1) / PAGE_SIZE > k
  · rw [if_pos hgrow]
    have hfid : ¬(readAt disk SALT_SIZE FILE_ID_SIZE).length ≠ FILE_ID_SIZE := by
      rw [readAt_length, hwf]
      show ¬min 32 (48 + k * 8220 - 16) ≠ 32
      omega
    rw [if_neg hfid]
    obtain ⟨disk', hloop, hlen, hfr, hzero⟩ :=
      truncExtendLoop_spec encKey (readAt disk SALT_SIZE FILE_ID_SIZE) ivs hiv
        ((len + PAGE_SIZE - 1) / PAGE_SIZE - k) disk k hwf (by omega)
    refine ⟨disk', hloop, ?_, ?_⟩
    · rw [hlen]
      show 48 + (k + ((len + PAGE_SIZE - 1) / PAGE_SIZE - k)) * 8220 = _
      show _ = 48 + ((len + PAGE_SIZE - 1) / PAGE_SIZE) * 8220
      omega
    · intro j hj1 hj2
      exact hzero j hj1 (by omega)
  · rw [if_neg hgrow]
    have hgrow8 : ¬(len + 8192 - 1) / 8192 > k := hgrow
    have hle : FILE_HEADER_SIZE + ((len + PAGE_SIZE - 1) / PAGE_SIZE) * ENCRYPTED_PAGE_SIZE ≤
        disk.length := by
      rw [hwf]
      show 48 + (len + 8192 - 1) / 8192 * 8220 ≤ 48 + k * 8220
      have : (len + 8192 - 1) / 8192 * 8220 ≤ k * 8220 :=
        Nat.mul_le_mul_right 8220 (by omega)
      omega
    rw [if_pos hle]
    refine ⟨_, rfl, ?_, ?_⟩
    · rw [List.length_take]
      omega
    · intro j hj1 hj2
      omega

/-- Witness for C3: truncating a header-only (zero-page) file to length 0
keeps the physical size exactly `FILE_HEADER_SIZE`. -/
theorem C3_truncate_exact_size_and_zero_extend_witness :
    ((List.replicate 48 (0 : Nat)).length = FILE_HEADER_SIZE + 0 * ENCRYPTED_PAGE_SIZE ∧
      ((0 : Nat) + PAGE_SIZE - 1) / PAGE_SIZE ≤ 0x100000000) ∧
    ∃ disk', fsTruncate [1] (fun _ => List.replicate 12 1) (List.replicate 48 0) 0 =
        .ok disk' ∧
      disk'.length =
        FILE_HEADER_SIZE + (((0 : Nat) + PAGE_SIZE - 1) / PAGE_SIZE) * ENCRYPTED_PAGE_SIZE ∧
      (∀ j, 0 ≤ j → j < ((0 : Nat) + PAGE_SIZE - 1) / PAGE_SIZE →
        decryptPage (pageSlot disk' j) j [1]
            (readAt (List.replicate 48 0) SALT_SIZE FILE_ID_SIZE) =
          .ok (List.replicate PAGE_SIZE 0)) :=
  ⟨⟨by decide, by decide⟩,
    C3_truncate_exact_size_and_zero_extend [1] (fun _ => List.replicate 12 1)
      (List.replicate 48 0) 0 0 (by decide) (fun _ => rfl) (by decide)⟩
